import Mathlib

/-!
Verification of the tezedge-recorder chunk-parser state machine
(`tezedge-recorder/src/connection/chunk_parser/state.rs`) against its
specification.  The state machine source is translated directly; the
supporting modules it imports (`buffer`, `key`, `tables`) are not part of
the provided sources and are modelled from the specification (§3, §4.A,
§6), as marked on each such definition.  External crypto primitives
(proof-of-work check, key derivation, authenticated decryption) are
abstracted as function parameters, as the source delegates them to the
`crypto` crate.
-/

namespace TR

/-- Modelled from the spec: the chunk buffer (§4.A), whose source module
`buffer.rs` is not among the provided files.  Per-direction reassembly
state: an ordered byte accumulator and a per-direction chunk counter. -/
structure Buffer where
  data : List Nat
  counter : Nat
deriving DecidableEq

namespace Buffer

/-- Modelled from the spec (§4.A): append payload bytes to the accumulator. -/
def handle_data (b : Buffer) (payload : List Nat) : Buffer :=
  { b with data := b.data ++ payload }

/-- Modelled from the spec (§4.A): non-destructively report the first
complete chunk, if buffered.  Framing: 2-byte big-endian length `L`, then
`L` bytes; the chunk is the `L + 2` bytes including the length. -/
def have_chunk (b : Buffer) : Option (List Nat) :=
  match b.data with
  | b0 :: b1 :: rest =>
      if b0 * 256 + b1 ≤ rest.length then
        some (b0 :: b1 :: rest.take (b0 * 256 + b1))
      else
        none
  | _ => none

/-- Modelled from the spec (§4.A): if a complete chunk is buffered, remove
it, return `(counter, bytes including the length)` and increment the
counter. -/
def next (b : Buffer) : Option ((Nat × List Nat) × Buffer) :=
  match b.have_chunk with
  | some c => some ((b.counter, c), ⟨b.data.drop c.length, b.counter + 1⟩)
  | none => none

/-- Modelled from the spec (§4.A): count of buffered bytes not yet consumed. -/
def remaining (b : Buffer) : Nat := b.data.length

/-- Modelled from the spec (§4.A, §9): flush whatever bytes are currently
buffered as a synthetic chunk, incrementing the counter; an empty flush
emits nothing and does not advance the counter. -/
def cleanup (b : Buffer) : Option ((Nat × List Nat) × Buffer) :=
  match b.data with
  | [] => none
  | _ => some ((b.counter, b.data), ⟨[], b.counter + 1⟩)

end Buffer

/-- Modelled from the spec: the session key (§3), whose source module
`key.rs` is not among the provided files.  Only its stateful nonce is
observable to the state machine; the cipher itself is abstracted by the
decryption oracle below. -/
structure Key where
  nonce : Nat
deriving DecidableEq

/-- Modelled from the spec (§6): authenticated decryption.  The crypto
primitive is abstracted as an oracle `D` from the key's current nonce and
the raw chunk bytes to an optional plaintext; the nonce advances on
success. -/
def Key.decrypt (D : Nat → List Nat → Option (List Nat)) (k : Key) (bytes : List Nat) :
    Option (List Nat) × Key :=
  match D k.nonce bytes with
  | some plain => (some plain, ⟨k.nonce + 1⟩)
  | none => (none, k)

/-- Modelled from the spec (§3): the long-lived node identity, opaque to the
state machine and consumed only by the key-derivation primitive. -/
structure Identity where
  seed : Nat
deriving DecidableEq

/-- Modelled from the spec (§3): the accumulating diagnostic comment record
attached to a connection. -/
structure Comments where
  outgoing_too_short : Option Nat := none
  incoming_too_short : Option Nat := none
  outgoing_wrong_pow : Option Float := none
  incoming_wrong_pow : Option Float := none
  outgoing_wrong_pk : Bool := false
  outgoing_cannot_decrypt : Option Nat := none
  incoming_cannot_decrypt : Option Nat := none
  outgoing_uncertain : Bool := false
  incoming_uncertain : Bool := false

/-- Modelled from the spec (§3): the connection record (`connection::Item`),
whose source module is not among the provided files. -/
structure ConnectionItem where
  key : Nat
  initiator : Bool
  peerPk : Option (List Nat) := none
  comments : Comments := {}

/-- Modelled from the spec (§3): the emitted chunk record (`chunk::Item`):
connection key, direction, per-direction counter, raw bytes and plaintext
bytes (empty when not decrypted).  The direction flag is `true` for the
remote-origin (incoming) half, matching the type-level bit of the source. -/
structure ChunkItem where
  cnKey : Nat
  incoming : Bool
  counter : Nat
  bytes : List Nat
  plain : List Nat
deriving DecidableEq

/-- The shared per-direction context of every state (`Inner<S>` in the
source); the type-level direction bit `S` becomes the field `incoming`. -/
structure Inner where
  incoming : Bool
  cn : ConnectionItem
  id : Identity
  buffer : Buffer

/-- `Inner::chunk`: build a chunk record for this direction. -/
def Inner.chunk (i : Inner) (counter : Nat) (bytes plain : List Nat) : ChunkItem :=
  ⟨i.cn.key, i.incoming, counter, bytes, plain⟩

/-- `Inner::handle_data`: push payload bytes into the buffer. -/
def Inner.handle_data (i : Inner) (payload : List Nat) : Inner :=
  { i with buffer := i.buffer.handle_data payload }

/-- `Inner::cleanup`: flush the buffer residual as a chunk with empty
plaintext. -/
def Inner.cleanup (i : Inner) : Option ChunkItem × Inner :=
  match i.buffer.cleanup with
  | some ((counter, bytes), b) => (some (i.chunk counter bytes []), { i with buffer := b })
  | none => (none, i)

structure Initial where
  inner : Inner

structure HaveCm where
  inner : Inner

structure Uncertain where
  inner : Inner

structure HaveKey where
  inner : Inner
  key : Key

structure HaveNotKey where
  inner : Inner

structure HaveData where
  inner : Inner
  key : Key
  error : Option Nat

structure CannotDecrypt where
  inner : Inner

/-- `Uncertain::new`: flush the buffered bytes via `cleanup` and stamp the
direction's `*_uncertain` comment on the connection. -/
def Uncertain.new (inner : Inner) : Uncertain × Option ChunkItem :=
  let (c, i) := inner.cleanup
  let i :=
    if i.incoming then
      { i with cn.comments.incoming_uncertain := true }
    else
      { i with cn.comments.outgoing_uncertain := true }
  (⟨i⟩, c)

/-- `Initial::new`. -/
def Initial.new (cn : ConnectionItem) (id : Identity) (incoming : Bool) : Initial :=
  ⟨⟨incoming, cn, id, ⟨[], 0⟩⟩⟩

/-- `Initial::uncertain`. -/
def Initial.uncertain (s : Initial) : Uncertain × Option ChunkItem :=
  Uncertain.new s.inner

/-- `Initial::handle_data`: buffer the payload; once a complete first chunk
is present, become `HaveCm` (Either::Left = stay, Right = advance). -/
def Initial.handle_data (s : Initial) (payload : List Nat) : Initial ⊕ HaveCm :=
  let i := s.inner.handle_data payload
  if (i.buffer.have_chunk).isSome then Sum.inr ⟨i⟩ else Sum.inl ⟨i⟩

/-- `HaveCm::handle_data`: if the buffered residual exceeds 128 KiB
(`0x20000`), give up on the rendezvous (Err = become `Uncertain`, the
arriving payload is not appended); otherwise append the payload (Ok). -/
def HaveCm.handle_data (s : HaveCm) (payload : List Nat) :
    HaveCm ⊕ (Uncertain × Option ChunkItem) :=
  if s.inner.buffer.remaining > 0x20000 then
    Sum.inr (Uncertain.new s.inner)
  else
    Sum.inl ⟨s.inner.handle_data payload⟩

/-- `HaveCm::have_key`: consume the buffered connection-message chunk,
emitting it with plaintext `raw[2..]`, and carry the session key into
`HaveKey`.  The source unwraps `buffer.next()`; the impossible case is
modelled as `none`. -/
def HaveCm.have_key (s : HaveCm) (key : Key) : Option (HaveKey × ChunkItem) :=
  match s.inner.buffer.next with
  | some ((counter, bytes), b) =>
      some (⟨{ s.inner with buffer := b }, key⟩,
        s.inner.chunk counter bytes (bytes.drop 2))
  | none => none

/-- `HaveCm::have_not_key`: flush via `cleanup` and become `HaveNotKey`. -/
def HaveCm.have_not_key (s : HaveCm) : HaveNotKey × Option ChunkItem :=
  let (c, i) := s.inner.cleanup
  (⟨i⟩, c)

/-- `Uncertain::handle_data`: buffer the payload and immediately flush it as
a raw chunk.  The source unwraps the `cleanup` result; the `none` case
(empty buffer and empty payload) is modelled as `none`. -/
def Uncertain.handle_data (s : Uncertain) (payload : List Nat) :
    Option (ChunkItem × Uncertain) :=
  let i := s.inner.handle_data payload
  match i.cleanup with
  | (some c, i) => some (c, ⟨i⟩)
  | (none, _) => none

/-- `HaveNotKey::handle_data`: same streaming behaviour as `Uncertain`. -/
def HaveNotKey.handle_data (s : HaveNotKey) (payload : List Nat) :
    Option (ChunkItem × HaveNotKey) :=
  let i := s.inner.handle_data payload
  match i.cleanup with
  | (some c, i) => some (c, ⟨i⟩)
  | (none, _) => none

/-- `CannotDecrypt::handle_data`: same streaming behaviour as `Uncertain`. -/
def CannotDecrypt.handle_data (s : CannotDecrypt) (payload : List Nat) :
    Option (ChunkItem × CannotDecrypt) :=
  let i := s.inner.handle_data payload
  match i.cleanup with
  | (some c, i) => some (c, ⟨i⟩)
  | (none, _) => none

/-- `HaveKey::handle_data`: push the payload and move to `HaveData`. -/
def HaveKey.handle_data (s : HaveKey) (payload : List Nat) : HaveData :=
  ⟨s.inner.handle_data payload, s.key, none⟩

/-- `Iterator::next` for `HaveData`: once the error is set, yield nothing;
otherwise read the next framed chunk from the buffer and attempt
authenticated decryption.  On success emit the decrypted chunk; on failure
record the failing counter and yield the buffer `cleanup`. -/
def HaveData.next (D : Nat → List Nat → Option (List Nat)) (s : HaveData) :
    Option ChunkItem × HaveData :=
  if s.error.isSome then (none, s)
  else
    match s.inner.buffer.next with
    | none => (none, s)
    | some ((counter, bytes), b) =>
        match s.key.decrypt D bytes with
        | (some plain, k) =>
            (some (s.inner.chunk counter bytes plain), ⟨{ s.inner with buffer := b }, k, s.error⟩)
        | (none, k) =>
            let (c, i) := Inner.cleanup { s.inner with buffer := b }
            (c, ⟨i, k, some counter⟩)

/-- `HaveData::over`: if a decrypt error was recorded, stamp the direction's
`*_cannot_decrypt(counter)` comment and become `CannotDecrypt`; otherwise
collapse back to `HaveKey`. -/
def HaveData.over (s : HaveData) : HaveKey ⊕ (CannotDecrypt × ConnectionItem) :=
  match s.error with
  | some position =>
      let i :=
        if s.inner.incoming then
          { s.inner with cn.comments.incoming_cannot_decrypt := some position }
        else
          { s.inner with cn.comments.outgoing_cannot_decrypt := some position }
      Sum.inr (⟨i⟩, i.cn)
  | none => Sum.inl ⟨s.inner, s.key⟩

/-- The proof-of-work difficulty target hard-coded in `HaveCm::make_key`
(`let target = 26.0`). -/
def powTarget : Float := 26.0

/-- `HandshakeWarning` from `HaveCm::make_key`. -/
inductive HandshakeWarning where
  | tooShort (size : Nat)
  | powInvalid (target : Float)

/-- The `check` closure of `HaveCm::make_key`.  Its argument is the raw
chunk bytes of an emitted connection-message record (including the 2-byte
length).  The external `proof_of_work::check_proof_of_work` primitive is
abstracted as the boolean oracle `powOk` over the 56 bytes `[4..60)`. -/
def check (powOk : List Nat → Bool) (payload : List Nat) :
    Except HandshakeWarning (List Nat) :=
  if payload.length ≤ 88 then
    Except.error (HandshakeWarning.tooShort payload.length)
  else if powOk ((payload.drop 4).take 56) then
    Except.ok ((payload.drop 4).take 32)
  else
    Except.error (HandshakeWarning.powInvalid powTarget)

/-- The first soft-check block of `HaveCm::make_key` (on the local
connection-message chunk): stamp `outgoing_too_short` or
`outgoing_wrong_pow` on failure. -/
def applyLocalCheck (powOk : List Nat → Bool) (cn : ConnectionItem) (bytes : List Nat) :
    ConnectionItem :=
  match check powOk bytes with
  | Except.ok _ => cn
  | Except.error (HandshakeWarning.tooShort size) =>
      { cn with comments.outgoing_too_short := some size }
  | Except.error (HandshakeWarning.powInvalid target) =>
      { cn with comments.outgoing_wrong_pow := some target }

/-- The second soft-check block of `HaveCm::make_key` (on the remote
connection-message chunk): set the peer public key on success, stamp
`incoming_too_short` or `incoming_wrong_pow` on failure. -/
def applyRemoteCheck (powOk : List Nat → Bool) (cn : ConnectionItem) (bytes : List Nat) :
    ConnectionItem :=
  match check powOk bytes with
  | Except.ok peerPk => { cn with peerPk := some peerPk }
  | Except.error (HandshakeWarning.tooShort size) =>
      { cn with comments.incoming_too_short := some size }
  | Except.error (HandshakeWarning.powInvalid target) =>
      { cn with comments.incoming_wrong_pow := some target }

/-- `MakeKeyOutput` of `HaveCm::make_key`; the `Result` halves become sums
with `inl` = `HaveKey`. -/
structure MakeKeyOutput where
  cn : ConnectionItem
  localHalf : HaveKey ⊕ HaveNotKey
  l_chunk : Option ChunkItem
  remoteHalf : HaveKey ⊕ HaveNotKey
  r_chunk : Option ChunkItem

/-- `HaveCm::make_key` (implemented on the local half, taking the remote
half): run key derivation (abstracted as `mkKeys`) over the two buffered
connection messages; on success finalize both halves with `have_key`,
emitting the two connection-message chunks and applying the soft checks;
on failure stamp `outgoing_wrong_pk` and finalize both with
`have_not_key`.  The source unwraps `have_chunk` on both halves; the
impossible cases are modelled as `none`. -/
def HaveCm.make_key (mkKeys : Identity → List Nat → List Nat → Bool → Option (Key × Key))
    (powOk : List Nat → Bool) (s : HaveCm) (peer : HaveCm) : Option MakeKeyOutput :=
  match s.inner.buffer.have_chunk, peer.inner.buffer.have_chunk with
  | some local_chunk, some remote_chunk =>
      let cn := s.inner.cn
      match mkKeys s.inner.id local_chunk remote_chunk cn.initiator with
      | some (localKey, remoteKey) =>
          match s.have_key localKey, peer.have_key remoteKey with
          | some (l, l_chunk), some (r, r_chunk) =>
              let cn := applyLocalCheck powOk cn l_chunk.bytes
              let cn := applyRemoteCheck powOk cn r_chunk.bytes
              some ⟨cn, Sum.inl l, some l_chunk, Sum.inl r, some r_chunk⟩
          | _, _ => none
      | none =>
          let (l, l_chunk) := s.have_not_key
          let (r, r_chunk) := peer.have_not_key
          some ⟨{ cn with comments.outgoing_wrong_pk := true },
            Sum.inr l, l_chunk, Sum.inr r, r_chunk⟩
  | _, _ => none

/-- Fuel-indexed draining of a `HaveData` iterator: repeatedly call `next`
until it yields nothing, collecting the emitted chunks.  `drain` below
instantiates the fuel with the buffered byte count, which is always
sufficient (each successful `next` consumes at least two buffered bytes and
a failing one flushes the buffer). -/
def HaveData.drainFuel (D : Nat → List Nat → Option (List Nat)) :
    Nat → HaveData → List ChunkItem × HaveData
  | 0, s => ([], s)
  | fuel + 1, s =>
      match s.next D with
      | (none, s') => ([], s')
      | (some c, s') =>
          (c :: (HaveData.drainFuel D fuel s').1, (HaveData.drainFuel D fuel s').2)

/-- Drain a `HaveData` iterator to exhaustion, per the caller contract of
§4.C ("all complete chunks are emitted before returning"). -/
def HaveData.drain (D : Nat → List Nat → Option (List Nat)) (s : HaveData) :
    List ChunkItem × HaveData :=
  HaveData.drainFuel D s.inner.buffer.data.length s

/-- The per-direction state of the chunk parser, as routed by the
connection coordinator (§4.C, §4.D): `HaveData` is transient (drained to
exhaustion and closed with `over` within one payload delivery), so it is
not a resting state. -/
inductive MachineState where
  | initialSt (s : Initial)
  | haveCm (s : HaveCm)
  | uncertain (s : Uncertain)
  | haveKey (s : HaveKey)
  | haveNotKey (s : HaveNotKey)
  | cannotDecrypt (s : CannotDecrypt)

/-- Modelled from the spec (§4.D): the coordinator actions that reach one
half: a payload delivery, the rendezvous finalizers (`have_key` with the
derived session key, or `have_not_key`), and conversion to `Uncertain` on
close. -/
inductive Event where
  | payload (bytes : List Nat)
  | keyArrived (k : Key)
  | noKey
  | close

/-- Turn an optional emitted chunk into the emitted list. -/
def optChunk : Option ChunkItem → List ChunkItem
  | some c => [c]
  | none => []

/-- One coordinator-driven step of a single direction (modelled from the
spec §4.C/§4.D driving contract): payloads are routed to the current
state's `handle_data`; in `HaveKey` the resulting `HaveData` is drained and
closed with `over`; finalizers apply only in `HaveCm`; `close` converts the
mid-handshake states to `Uncertain`.  Events that do not apply to the
current state leave it unchanged and emit nothing. -/
def step (D : Nat → List Nat → Option (List Nat)) (s : MachineState) (e : Event) :
    MachineState × List ChunkItem :=
  match s, e with
  | .initialSt s, .payload p =>
      match s.handle_data p with
      | Sum.inl s' => (.initialSt s', [])
      | Sum.inr s' => (.haveCm s', [])
  | .initialSt s, .close =>
      (.uncertain (s.uncertain).1, optChunk (s.uncertain).2)
  | .initialSt s, _ => (.initialSt s, [])
  | .haveCm s, .payload p =>
      match s.handle_data p with
      | Sum.inl s' => (.haveCm s', [])
      | Sum.inr (u, c) => (.uncertain u, optChunk c)
  | .haveCm s, .keyArrived k =>
      match s.have_key k with
      | some (hk, c) => (.haveKey hk, [c])
      | none => (.haveCm s, [])
  | .haveCm s, .noKey =>
      (.haveNotKey (s.have_not_key).1, optChunk (s.have_not_key).2)
  | .haveCm s, .close =>
      (.uncertain (Uncertain.new s.inner).1, optChunk (Uncertain.new s.inner).2)
  | .uncertain s, .payload p =>
      match s.handle_data p with
      | some (c, s') => (.uncertain s', [c])
      | none => (.uncertain s, [])
  | .uncertain s, _ => (.uncertain s, [])
  | .haveNotKey s, .payload p =>
      match s.handle_data p with
      | some (c, s') => (.haveNotKey s', [c])
      | none => (.haveNotKey s, [])
  | .haveNotKey s, _ => (.haveNotKey s, [])
  | .haveKey s, .payload p =>
      (match ((s.handle_data p).drain D).2.over with
       | Sum.inl hk => MachineState.haveKey hk
       | Sum.inr (cd, _) => MachineState.cannotDecrypt cd,
       ((s.handle_data p).drain D).1)
  | .haveKey s, _ => (.haveKey s, [])
  | .cannotDecrypt s, .payload p =>
      match s.handle_data p with
      | some (c, s') => (.cannotDecrypt s', [c])
      | none => (.cannotDecrypt s, [])
  | .cannotDecrypt s, _ => (.cannotDecrypt s, [])

/-- Run one direction over a sequence of coordinator events, collecting all
emitted chunk records in order. -/
def run (D : Nat → List Nat → Option (List Nat)) :
    MachineState → List Event → MachineState × List ChunkItem
  | s, [] => (s, [])
  | s, e :: es =>
      ((run D (step D s e).1 es).1, (step D s e).2 ++ (run D (step D s e).1 es).2)

/-- The per-direction chunk counter visible in every state. -/
def MachineState.counter : MachineState → Nat
  | .initialSt s => s.inner.buffer.counter
  | .haveCm s => s.inner.buffer.counter
  | .uncertain s => s.inner.buffer.counter
  | .haveKey s => s.inner.buffer.counter
  | .haveNotKey s => s.inner.buffer.counter
  | .cannotDecrypt s => s.inner.buffer.counter

/-- The fresh per-direction machine for a new connection. -/
def initialState (cn : ConnectionItem) (id : Identity) (incoming : Bool) : MachineState :=
  .initialSt (Initial.new cn id incoming)

/-- A sample connection record for concrete runs. -/
def cnSample : ConnectionItem := { key := 1, initiator := true }

/-- A sample identity for concrete runs. -/
def idSample : Identity := ⟨0⟩

/-- A decryption oracle that always fails authentication. -/
def failD : Nat → List Nat → Option (List Nat) := fun _ _ => none

/-- A decryption oracle that always succeeds, prepending the nonce. -/
def okD : Nat → List Nat → Option (List Nat) := fun n b => some (n :: b)

/-- A key-derivation oracle that always succeeds. -/
def mkKeysOk : Identity → List Nat → List Nat → Bool → Option (Key × Key) :=
  fun _ _ _ _ => some (⟨0⟩, ⟨0⟩)

/-- A key-derivation oracle that always fails. -/
def mkKeysFail : Identity → List Nat → List Nat → Bool → Option (Key × Key) :=
  fun _ _ _ _ => none

/-- A proof-of-work oracle that always accepts. -/
def powAccept : List Nat → Bool := fun _ => true

/-- A connection-message chunk whose payload (after the 2-byte length) is
87 bytes, so the raw chunk is 89 bytes: longer than 88 raw, yet 88 or
shorter as a payload. -/
def cmRawRemote : List Nat := [0, 87] ++ (List.range 87).map (· + 100)

/-- A second such chunk for the local direction. -/
def cmRawLocal : List Nat := [0, 87] ++ (List.range 87).map (· + 10)

/-- Observer: did `over` land in `CannotDecrypt`? -/
def isCannotDecrypt : HaveKey ⊕ (CannotDecrypt × ConnectionItem) → Bool
  | Sum.inr _ => true
  | Sum.inl _ => false

/-- `counterChain n l m`: the counters `l` are weakly bounded below by `n`,
strictly increasing, and the final counter `m` is past all of them. -/
def counterChain : Nat → List Nat → Nat → Prop
  | n, [], m => n ≤ m
  | n, c :: rest, m => n ≤ c ∧ counterChain (c + 1) rest m

/-- `seqFrom n k` is the contiguous counter sequence `[n, n+1, …, n+k-1]`. -/
def seqFrom : Nat → Nat → List Nat
  | _, 0 => []
  | n, k + 1 => n :: seqFrom (n + 1) k

/-- The raw streaming states: every payload is flushed as a raw chunk with
empty plaintext. -/
def isRaw : MachineState → Bool
  | .uncertain _ => true
  | .haveNotKey _ => true
  | .cannotDecrypt _ => true
  | _ => false

/-- Append further bytes to the buffer of a `HaveData` state (the shape of
`HaveKey::handle_data` when the error is still unset). -/
def appendHD (s : HaveData) (q : List Nat) : HaveData :=
  ⟨{ s.inner with buffer := ⟨s.inner.buffer.data ++ q, s.inner.buffer.counter⟩ },
    s.key, s.error⟩

/-- Observer: the connection record returned by `over` on the error path. -/
def overCn : HaveKey ⊕ (CannotDecrypt × ConnectionItem) → Option ConnectionItem
  | Sum.inr (_, cn) => some cn
  | Sum.inl _ => none

/-! ### Basic lemmas about the buffer and the shared context -/

theorem Buffer.have_chunk_ne_nil {b : Buffer} {c : List Nat}
    (h : b.have_chunk = some c) : b.data ≠ [] := by
  intro hnil
  rw [Buffer.have_chunk, hnil] at h
  exact Option.noConfusion h

theorem Buffer.next_of_have_chunk {b : Buffer} {c : List Nat}
    (h : b.have_chunk = some c) :
    b.next = some ((b.counter, c), ⟨b.data.drop c.length, b.counter + 1⟩) := by
  rw [Buffer.next, h]

theorem Inner.cleanup_of_ne_nil {i : Inner} (h : i.buffer.data ≠ []) :
    i.cleanup = (some (i.chunk i.buffer.counter i.buffer.data []),
      { i with buffer := ⟨[], i.buffer.counter + 1⟩ }) := by
  obtain ⟨inc, cn, id, ⟨d, n⟩⟩ := i
  cases d with
  | nil => exact absurd rfl h
  | cons a t => rfl

theorem Inner.cleanup_nil {i : Inner} (h : i.buffer.data = []) :
    i.cleanup = (none, i) := by
  rw [Inner.cleanup, Buffer.cleanup, h]

theorem Inner.chunk_handle_data (i : Inner) (p : List Nat) (a : Nat) (b c : List Nat) :
    (i.handle_data p).chunk a b c = i.chunk a b c := rfl

/-- `handle_data` on the three raw streaming states with a non-empty
payload: the appended buffer is flushed as exactly one chunk with empty
plaintext. -/
theorem uncertain_flush_eq (s : Uncertain) (p : List Nat) (hp : p ≠ []) :
    s.handle_data p =
      some (s.inner.chunk s.inner.buffer.counter (s.inner.buffer.data ++ p) [],
        ⟨{ s.inner with buffer := ⟨[], s.inner.buffer.counter + 1⟩ }⟩) := by
  have hne : (s.inner.handle_data p).buffer.data ≠ [] := by
    simp [Inner.handle_data, Buffer.handle_data, hp]
  rw [Uncertain.handle_data]
  rw [Inner.cleanup_of_ne_nil hne]
  rfl

theorem haveNotKey_flush_eq (s : HaveNotKey) (p : List Nat) (hp : p ≠ []) :
    s.handle_data p =
      some (s.inner.chunk s.inner.buffer.counter (s.inner.buffer.data ++ p) [],
        ⟨{ s.inner with buffer := ⟨[], s.inner.buffer.counter + 1⟩ }⟩) := by
  have hne : (s.inner.handle_data p).buffer.data ≠ [] := by
    simp [Inner.handle_data, Buffer.handle_data, hp]
  rw [HaveNotKey.handle_data]
  rw [Inner.cleanup_of_ne_nil hne]
  rfl

theorem cannotDecrypt_flush_eq (s : CannotDecrypt) (p : List Nat) (hp : p ≠ []) :
    s.handle_data p =
      some (s.inner.chunk s.inner.buffer.counter (s.inner.buffer.data ++ p) [],
        ⟨{ s.inner with buffer := ⟨[], s.inner.buffer.counter + 1⟩ }⟩) := by
  have hne : (s.inner.handle_data p).buffer.data ≠ [] := by
    simp [Inner.handle_data, Buffer.handle_data, hp]
  rw [CannotDecrypt.handle_data]
  rw [Inner.cleanup_of_ne_nil hne]
  rfl

/-! ### Lemmas about the handshake soft check and `make_key` -/

theorem check_err_short {powOk : List Nat → Bool} {bytes : List Nat}
    (h : bytes.length ≤ 88) :
    check powOk bytes = Except.error (HandshakeWarning.tooShort bytes.length) := by
  simp [check, h]

theorem check_err_pow {powOk : List Nat → Bool} {bytes : List Nat}
    (h : 88 < bytes.length) (hp : powOk ((bytes.drop 4).take 56) = false) :
    check powOk bytes = Except.error (HandshakeWarning.powInvalid powTarget) := by
  simp [check, Nat.not_le.mpr h, hp]

theorem check_ok {powOk : List Nat → Bool} {bytes : List Nat}
    (h : 88 < bytes.length) (hp : powOk ((bytes.drop 4).take 56) = true) :
    check powOk bytes = Except.ok ((bytes.drop 4).take 32) := by
  simp [check, Nat.not_le.mpr h, hp]

theorem HaveCm.have_key_eq {s : HaveCm} {c : List Nat}
    (hc : s.inner.buffer.have_chunk = some c) (k : Key) :
    s.have_key k =
      some (⟨{ s.inner with
                buffer := ⟨s.inner.buffer.data.drop c.length, s.inner.buffer.counter + 1⟩ }, k⟩,
        s.inner.chunk s.inner.buffer.counter c (c.drop 2)) := by
  rw [HaveCm.have_key, Buffer.next_of_have_chunk hc]

theorem HaveCm.have_not_key_eq {s : HaveCm} (h : s.inner.buffer.data ≠ []) :
    s.have_not_key =
      (⟨{ s.inner with buffer := ⟨[], s.inner.buffer.counter + 1⟩ }⟩,
        some (s.inner.chunk s.inner.buffer.counter s.inner.buffer.data [])) := by
  rw [HaveCm.have_not_key, Inner.cleanup_of_ne_nil h]

/-- Reduction of `make_key` on the key-derivation success path. -/
theorem HaveCm.make_key_some
    {mkKeys : Identity → List Nat → List Nat → Bool → Option (Key × Key)}
    {powOk : List Nat → Bool} {s peer : HaveCm} {lc rc : List Nat} {k1 k2 : Key}
    (hl : s.inner.buffer.have_chunk = some lc)
    (hr : peer.inner.buffer.have_chunk = some rc)
    (hk : mkKeys s.inner.id lc rc s.inner.cn.initiator = some (k1, k2)) :
    HaveCm.make_key mkKeys powOk s peer =
      some ⟨applyRemoteCheck powOk (applyLocalCheck powOk s.inner.cn lc) rc,
        Sum.inl ⟨{ s.inner with
          buffer := ⟨s.inner.buffer.data.drop lc.length, s.inner.buffer.counter + 1⟩ }, k1⟩,
        some (s.inner.chunk s.inner.buffer.counter lc (lc.drop 2)),
        Sum.inl ⟨{ peer.inner with
          buffer := ⟨peer.inner.buffer.data.drop rc.length, peer.inner.buffer.counter + 1⟩ }, k2⟩,
        some (peer.inner.chunk peer.inner.buffer.counter rc (rc.drop 2))⟩ := by
  rw [HaveCm.make_key, hl, hr]
  simp only [hk, HaveCm.have_key_eq hl k1, HaveCm.have_key_eq hr k2]
  rfl

/-- Reduction of `make_key` on the key-derivation failure path. -/
theorem HaveCm.make_key_none
    {mkKeys : Identity → List Nat → List Nat → Bool → Option (Key × Key)}
    {powOk : List Nat → Bool} {s peer : HaveCm} {lc rc : List Nat}
    (hl : s.inner.buffer.have_chunk = some lc)
    (hr : peer.inner.buffer.have_chunk = some rc)
    (hk : mkKeys s.inner.id lc rc s.inner.cn.initiator = none) :
    HaveCm.make_key mkKeys powOk s peer =
      some ⟨{ s.inner.cn with comments.outgoing_wrong_pk := true },
        Sum.inr ⟨{ s.inner with buffer := ⟨[], s.inner.buffer.counter + 1⟩ }⟩,
        some (s.inner.chunk s.inner.buffer.counter s.inner.buffer.data []),
        Sum.inr ⟨{ peer.inner with buffer := ⟨[], peer.inner.buffer.counter + 1⟩ }⟩,
        some (peer.inner.chunk peer.inner.buffer.counter peer.inner.buffer.data [])⟩ := by
  rw [HaveCm.make_key, hl, hr]
  simp only [hk, HaveCm.have_not_key_eq (Buffer.have_chunk_ne_nil hl),
    HaveCm.have_not_key_eq (Buffer.have_chunk_ne_nil hr)]

theorem applyLocalCheck_incoming (powOk : List Nat → Bool) (cn : ConnectionItem)
    (b : List Nat) :
    (applyLocalCheck powOk cn b).comments.incoming_too_short = cn.comments.incoming_too_short ∧
    (applyLocalCheck powOk cn b).comments.incoming_wrong_pow = cn.comments.incoming_wrong_pow ∧
    (applyLocalCheck powOk cn b).peerPk = cn.peerPk ∧
    (applyLocalCheck powOk cn b).initiator = cn.initiator := by
  rw [applyLocalCheck]
  cases check powOk b with
  | error w => cases w <;> exact ⟨rfl, rfl, rfl, rfl⟩
  | ok pk => exact ⟨rfl, rfl, rfl, rfl⟩

theorem applyRemoteCheck_outgoing (powOk : List Nat → Bool) (cn : ConnectionItem)
    (b : List Nat) :
    (applyRemoteCheck powOk cn b).comments.outgoing_too_short = cn.comments.outgoing_too_short ∧
    (applyRemoteCheck powOk cn b).comments.outgoing_wrong_pow = cn.comments.outgoing_wrong_pow := by
  rw [applyRemoteCheck]
  cases check powOk b with
  | error w => cases w <;> exact ⟨rfl, rfl⟩
  | ok pk => exact ⟨rfl, rfl⟩

/-! ### Characterizations of one `HaveData` iteration -/

theorem HaveData.next_err {D : Nat → List Nat → Option (List Nat)} {s : HaveData}
    (he : s.error.isSome = true) : HaveData.next D s = (none, s) := by
  rw [HaveData.next, if_pos he]

theorem HaveData.next_idle {D : Nat → List Nat → Option (List Nat)} {s : HaveData}
    (he : s.error = none) (hc : s.inner.buffer.have_chunk = none) :
    HaveData.next D s = (none, s) := by
  rw [HaveData.next, if_neg (by simp [he]), Buffer.next, hc]

theorem HaveData.next_ok {D : Nat → List Nat → Option (List Nat)} {s : HaveData}
    {ch plain : List Nat}
    (he : s.error = none) (hc : s.inner.buffer.have_chunk = some ch)
    (hok : D s.key.nonce ch = some plain) :
    HaveData.next D s =
      (some (s.inner.chunk s.inner.buffer.counter ch plain),
        ⟨{ s.inner with
            buffer := ⟨s.inner.buffer.data.drop ch.length, s.inner.buffer.counter + 1⟩ },
          ⟨s.key.nonce + 1⟩, none⟩) := by
  rw [HaveData.next, if_neg (by simp [he]), Buffer.next_of_have_chunk hc]
  simp only [Key.decrypt, hok, he]

theorem HaveData.next_fail {D : Nat → List Nat → Option (List Nat)} {s : HaveData}
    {ch : List Nat}
    (he : s.error = none) (hc : s.inner.buffer.have_chunk = some ch)
    (hf : D s.key.nonce ch = none) :
    HaveData.next D s =
      ((Inner.cleanup { s.inner with
          buffer := ⟨s.inner.buffer.data.drop ch.length, s.inner.buffer.counter + 1⟩ }).1,
        ⟨(Inner.cleanup { s.inner with
            buffer := ⟨s.inner.buffer.data.drop ch.length, s.inner.buffer.counter + 1⟩ }).2,
          s.key, some s.inner.buffer.counter⟩) := by
  rw [HaveData.next, if_neg (by simp [he]), Buffer.next_of_have_chunk hc]
  simp only [Key.decrypt, hf]

theorem Inner.cleanup_cn (i : Inner) :
    (i.cleanup).2.cn = i.cn ∧ (i.cleanup).2.incoming = i.incoming := by
  obtain ⟨inc, cn, id, ⟨d, n⟩⟩ := i
  cases d <;> exact ⟨rfl, rfl⟩

/-! ### Claim C2 (corrected) -/

/-- C2, counterexample: in state `HaveData` with exactly one buffered framed
chunk at counter 5, a failing authenticated decryption records 5 as the
failing counter but emits **no** chunk record at all — the failing chunk's
raw bytes were already consumed by `buffer.next`, so the claimed cleanup
record carrying them does not exist. -/
theorem c2_counterexample :
    (HaveData.next failD ⟨⟨false, cnSample, idSample, ⟨[0, 1, 7], 5⟩⟩, ⟨3⟩, none⟩).1 = none ∧
    (HaveData.next failD ⟨⟨false, cnSample, idSample, ⟨[0, 1, 7], 5⟩⟩, ⟨3⟩, none⟩).2.error =
      some 5 := by
  constructor <;> rfl

/-- C2, amended: when decryption of the framed chunk at counter `c` fails in
`HaveData`, the iterator records `c` as the failing counter; the failing
chunk's own bytes are consumed and dropped; the `cleanup` emitted in its
place carries only the *residual* buffered bytes (at counter `c + 1`, with
empty plaintext), or nothing when no residual remains; and `over` then
transitions to `CannotDecrypt`, stamping the direction's
`*_cannot_decrypt(c)` comment. -/
theorem c2_amended (D : Nat → List Nat → Option (List Nat)) (s : HaveData) (ch : List Nat)
    (he : s.error = none) (hc : s.inner.buffer.have_chunk = some ch)
    (hf : D s.key.nonce ch = none) :
    (HaveData.next D s).2.error = some s.inner.buffer.counter ∧
    (s.inner.buffer.data.drop ch.length = [] → (HaveData.next D s).1 = none) ∧
    (s.inner.buffer.data.drop ch.length ≠ [] →
      (HaveData.next D s).1 =
        some (s.inner.chunk (s.inner.buffer.counter + 1)
          (s.inner.buffer.data.drop ch.length) [])) ∧
    isCannotDecrypt (HaveData.over (HaveData.next D s).2) = true ∧
    (s.inner.incoming = true →
      (overCn (HaveData.over (HaveData.next D s).2)).map
        (fun cn => cn.comments.incoming_cannot_decrypt) =
        some (some s.inner.buffer.counter)) ∧
    (s.inner.incoming = false →
      (overCn (HaveData.over (HaveData.next D s).2)).map
        (fun cn => cn.comments.outgoing_cannot_decrypt) =
        some (some s.inner.buffer.counter)) := by
  rw [HaveData.next_fail he hc hf]
  obtain ⟨h1, h2⟩ := Inner.cleanup_cn
    { s.inner with buffer := ⟨s.inner.buffer.data.drop ch.length, s.inner.buffer.counter + 1⟩ }
  refine ⟨rfl, ?_, ?_, rfl, ?_, ?_⟩
  · intro hres
    rw [Inner.cleanup_nil hres]
  · intro hres
    rw [Inner.cleanup_of_ne_nil hres]
    rfl
  · intro hinc
    have hi : ((Inner.cleanup { s.inner with
        buffer := ⟨s.inner.buffer.data.drop ch.length,
          s.inner.buffer.counter + 1⟩ }).2).incoming = true := by
      rw [h2]; exact hinc
    simp [HaveData.over, overCn, hi]
  · intro hinc
    have hi : ((Inner.cleanup { s.inner with
        buffer := ⟨s.inner.buffer.data.drop ch.length,
          s.inner.buffer.counter + 1⟩ }).2).incoming = false := by
      rw [h2]; exact hinc
    simp [HaveData.over, overCn, hi]

/-- C2, witness: the amended theorem applied at a concrete `HaveData` state
holding the failing chunk `[0, 1, 7]` at counter 5 plus one residual byte. -/
theorem c2_witness :
    (HaveData.next failD
        ⟨⟨false, cnSample, idSample, ⟨[0, 1, 7, 9], 5⟩⟩, ⟨3⟩, none⟩).2.error = some 5 ∧
    (([9] : List Nat) ≠ [] →
      (HaveData.next failD
          ⟨⟨false, cnSample, idSample, ⟨[0, 1, 7, 9], 5⟩⟩, ⟨3⟩, none⟩).1 =
        some ⟨1, false, 6, [9], []⟩) ∧
    isCannotDecrypt (HaveData.over
      (HaveData.next failD
        ⟨⟨false, cnSample, idSample, ⟨[0, 1, 7, 9], 5⟩⟩, ⟨3⟩, none⟩).2) = true := by
  obtain ⟨a, b, c, d, e, f⟩ :=
    c2_amended failD ⟨⟨false, cnSample, idSample, ⟨[0, 1, 7, 9], 5⟩⟩, ⟨3⟩, none⟩ [0, 1, 7]
      rfl rfl rfl
  exact ⟨a, fun h => c h, d⟩

/-! ### Claim C4 (confirmed) -/

/-- C4: finalizing a `HaveCm` state (whose buffer holds the
connection-message chunk `c` and whose counter is still 0) with
`have_key k` consumes the chunk and emits it as the chunk record at
counter 0 with plaintext `raw[2..]`, transitioning to `HaveKey` carrying
the session key `k`. -/
theorem c4_have_key (s : HaveCm) (k : Key) (c : List Nat)
    (h0 : s.inner.buffer.counter = 0) (hc : s.inner.buffer.have_chunk = some c) :
    s.have_key k =
      some (⟨{ s.inner with buffer := ⟨s.inner.buffer.data.drop c.length, 1⟩ }, k⟩,
        s.inner.chunk 0 c (c.drop 2)) := by
  rw [HaveCm.have_key_eq hc k, h0]

/-- C4, witness: `have_key` applied to a concrete `HaveCm` holding the
chunk `[0, 1, 7]` (and one residual byte) at counter 0. -/
theorem c4_witness :
    (HaveCm.have_key ⟨⟨false, cnSample, idSample, ⟨[0, 1, 7, 9], 0⟩⟩⟩ ⟨5⟩) =
      some (⟨⟨false, cnSample, idSample, ⟨[9], 1⟩⟩, ⟨5⟩⟩, ⟨1, false, 0, [0, 1, 7], [7]⟩) :=
  c4_have_key ⟨⟨false, cnSample, idSample, ⟨[0, 1, 7, 9], 0⟩⟩⟩ ⟨5⟩ [0, 1, 7] rfl rfl

/-! ### Claim C5 (confirmed) -/

/-- C5: in `HaveCm`, a payload arriving while the buffered residual is
exactly 131,072 bytes leaves the direction in `HaveCm` (the payload is
appended), while a residual exceeding 131,072 bytes (in particular 131,073)
forces the transition to `Uncertain`: the buffered bytes are flushed as one
synthetic chunk and the direction's `*_uncertain` comment is stamped on the
connection. -/
theorem c5_overflow (s : HaveCm) (payload : List Nat) :
    (s.inner.buffer.remaining = 131072 →
      s.handle_data payload = Sum.inl ⟨s.inner.handle_data payload⟩) ∧
    (131072 < s.inner.buffer.remaining →
      s.handle_data payload = Sum.inr (Uncertain.new s.inner) ∧
      (Uncertain.new s.inner).2 =
        some (s.inner.chunk s.inner.buffer.counter s.inner.buffer.data []) ∧
      (s.inner.incoming = true →
        (Uncertain.new s.inner).1.inner.cn.comments.incoming_uncertain = true) ∧
      (s.inner.incoming = false →
        (Uncertain.new s.inner).1.inner.cn.comments.outgoing_uncertain = true)) := by
  constructor
  · intro h
    rw [HaveCm.handle_data, if_neg (by omega)]
  · intro h
    have hne : s.inner.buffer.data ≠ [] := by
      intro hnil
      rw [Buffer.remaining, hnil] at h
      simp at h
    refine ⟨?_, ?_, ?_, ?_⟩
    · rw [HaveCm.handle_data, if_pos (by exact h)]
    · rw [Uncertain.new, Inner.cleanup_of_ne_nil hne]
    · intro hinc
      simp [Uncertain.new, Inner.cleanup_of_ne_nil hne, hinc]
    · intro hinc
      simp [Uncertain.new, Inner.cleanup_of_ne_nil hne, hinc]

/-- C5, witness: the boundary instantiated with concrete buffers of
131,072 and 131,073 zero bytes. -/
theorem c5_witness :
    (HaveCm.handle_data ⟨⟨false, cnSample, idSample, ⟨List.replicate 131072 0, 0⟩⟩⟩ [1] =
      Sum.inl ⟨(Inner.handle_data ⟨false, cnSample, idSample,
        ⟨List.replicate 131072 0, 0⟩⟩ [1])⟩) ∧
    (HaveCm.handle_data ⟨⟨false, cnSample, idSample, ⟨List.replicate 131073 0, 0⟩⟩⟩ [1] =
      Sum.inr (Uncertain.new ⟨false, cnSample, idSample, ⟨List.replicate 131073 0, 0⟩⟩) ∧
     (Uncertain.new ⟨false, cnSample, idSample, ⟨List.replicate 131073 0, 0⟩⟩).2 =
      some (Inner.chunk ⟨false, cnSample, idSample, ⟨List.replicate 131073 0, 0⟩⟩ 0
        (List.replicate 131073 0) []) ∧
     (Uncertain.new ⟨false, cnSample, idSample,
        ⟨List.replicate 131073 0, 0⟩⟩).1.inner.cn.comments.outgoing_uncertain = true) := by
  have h1 := (c5_overflow ⟨⟨false, cnSample, idSample, ⟨List.replicate 131072 0, 0⟩⟩⟩ [1]).1
    (by rw [Buffer.remaining, List.length_replicate])
  have h2 := (c5_overflow ⟨⟨false, cnSample, idSample, ⟨List.replicate 131073 0, 0⟩⟩⟩ [1]).2
    (by rw [Buffer.remaining, List.length_replicate]; decide)
  exact ⟨h1, h2.1, h2.2.1, h2.2.2.2 rfl⟩

/-! ### Claim C10 (confirmed) -/

/-- C10: for `Uncertain`, `HaveNotKey` and `CannotDecrypt`, `handle_data`
with a non-empty payload always succeeds (the internal `cleanup` after
appending the payload returns a chunk, so the source's unwrap cannot
panic) and returns exactly one chunk record, with empty plaintext, carrying
the buffered bytes plus the payload. -/
theorem c10_raw_states (p : List Nat) (hp : p ≠ [])
    (u : Uncertain) (h : HaveNotKey) (cd : CannotDecrypt) :
    u.handle_data p =
      some (u.inner.chunk u.inner.buffer.counter (u.inner.buffer.data ++ p) [],
        ⟨{ u.inner with buffer := ⟨[], u.inner.buffer.counter + 1⟩ }⟩) ∧
    h.handle_data p =
      some (h.inner.chunk h.inner.buffer.counter (h.inner.buffer.data ++ p) [],
        ⟨{ h.inner with buffer := ⟨[], h.inner.buffer.counter + 1⟩ }⟩) ∧
    cd.handle_data p =
      some (cd.inner.chunk cd.inner.buffer.counter (cd.inner.buffer.data ++ p) [],
        ⟨{ cd.inner with buffer := ⟨[], cd.inner.buffer.counter + 1⟩ }⟩) :=
  ⟨uncertain_flush_eq u p hp, haveNotKey_flush_eq h p hp,
    cannotDecrypt_flush_eq cd p hp⟩

/-- C10, witness: the three raw streaming states at concrete inputs. -/
theorem c10_witness :
    Uncertain.handle_data ⟨⟨true, cnSample, idSample, ⟨[5], 2⟩⟩⟩ [7] =
      some (⟨1, true, 2, [5, 7], []⟩, ⟨⟨true, cnSample, idSample, ⟨[], 3⟩⟩⟩) ∧
    HaveNotKey.handle_data ⟨⟨true, cnSample, idSample, ⟨[5], 2⟩⟩⟩ [7] =
      some (⟨1, true, 2, [5, 7], []⟩, ⟨⟨true, cnSample, idSample, ⟨[], 3⟩⟩⟩) ∧
    CannotDecrypt.handle_data ⟨⟨true, cnSample, idSample, ⟨[5], 2⟩⟩⟩ [7] =
      some (⟨1, true, 2, [5, 7], []⟩, ⟨⟨true, cnSample, idSample, ⟨[], 3⟩⟩⟩) :=
  c10_raw_states [7] (by decide) ⟨⟨true, cnSample, idSample, ⟨[5], 2⟩⟩⟩
    ⟨⟨true, cnSample, idSample, ⟨[5], 2⟩⟩⟩ ⟨⟨true, cnSample, idSample, ⟨[5], 2⟩⟩⟩

/-! ### Counter-sequence machinery -/

theorem counterChain_mono {n' n : Nat} {l : List Nat} {m : Nat}
    (h : n' ≤ n) (hc : counterChain n l m) : counterChain n' l m := by
  cases l with
  | nil => exact Nat.le_trans h hc
  | cons c rest => exact ⟨Nat.le_trans h hc.1, hc.2⟩

theorem counterChain_append {n k m : Nat} {l₁ l₂ : List Nat}
    (h₁ : counterChain n l₁ k) (h₂ : counterChain k l₂ m) :
    counterChain n (l₁ ++ l₂) m := by
  induction l₁ generalizing n with
  | nil => exact counterChain_mono h₁ h₂
  | cons c rest ih => exact ⟨h₁.1, ih h₁.2⟩

theorem counterChain_lower {n : Nat} {l : List Nat} {m : Nat}
    (h : counterChain n l m) : ∀ x ∈ l, n ≤ x := by
  induction l generalizing n with
  | nil => intro x hx; cases hx
  | cons c rest ih =>
      intro x hx
      rcases List.mem_cons.mp hx with rfl | hx
      · exact h.1
      · exact Nat.le_trans (Nat.le_trans h.1 (Nat.le_succ c)) (ih h.2 x hx)

theorem counterChain_pairwise {n : Nat} {l : List Nat} {m : Nat}
    (h : counterChain n l m) : l.Pairwise (· < ·) := by
  induction l generalizing n with
  | nil => exact List.Pairwise.nil
  | cons c rest ih =>
      refine List.Pairwise.cons ?_ (ih h.2)
      intro x hx
      exact Nat.lt_of_lt_of_le (Nat.lt_succ_self c) (counterChain_lower h.2 x hx)

theorem seqFrom_append (a : Nat) : ∀ (n b : Nat),
    seqFrom n (a + b) = seqFrom n a ++ seqFrom (n + a) b := by
  induction a with
  | zero => intro n b; simp [seqFrom]
  | succ a ih =>
      intro n b
      have e1 : a + 1 + b = (a + b) + 1 := by omega
      rw [e1]
      show n :: seqFrom (n + 1) (a + b) = (n :: seqFrom (n + 1) a) ++ seqFrom (n + (a + 1)) b
      rw [ih (n + 1) b, List.cons_append]
      have e2 : n + 1 + a = n + (a + 1) := by omega
      rw [e2]

theorem seqFrom_eq_range' (k : Nat) : ∀ n, seqFrom n k = List.range' n k := by
  induction k with
  | zero => intro n; rfl
  | succ k ih =>
      intro n
      rw [List.range'_succ]
      show n :: seqFrom (n + 1) k = n :: List.range' (n + 1) k
      rw [ih (n + 1)]

theorem seqFrom_zero (k : Nat) : seqFrom 0 k = List.range k := by
  rw [seqFrom_eq_range' k 0, List.range_eq_range']

/-! ### Length and append lemmas for the buffer -/

theorem Buffer.have_chunk_length {b : Buffer} {c : List Nat}
    (h : b.have_chunk = some c) : 2 ≤ c.length ∧ c.length ≤ b.data.length := by
  obtain ⟨d, n⟩ := b
  cases d with
  | nil => exact absurd h (by simp [Buffer.have_chunk])
  | cons b0 t =>
    cases t with
    | nil => exact absurd h (by simp [Buffer.have_chunk])
    | cons b1 rest =>
      simp only [Buffer.have_chunk] at h
      split at h
      next hle =>
        injection h with h
        subst h
        simp [List.length_take]
      next => exact Option.noConfusion h

theorem Buffer.have_chunk_append {d q : List Nat} {n m : Nat} {c : List Nat}
    (h : Buffer.have_chunk ⟨d, n⟩ = some c) :
    Buffer.have_chunk ⟨d ++ q, m⟩ = some c := by
  cases d with
  | nil => exact absurd h (by simp [Buffer.have_chunk])
  | cons b0 t =>
    cases t with
    | nil => exact absurd h (by simp [Buffer.have_chunk])
    | cons b1 rest =>
      simp only [Buffer.have_chunk] at h
      split at h
      next hle =>
        injection h with h
        subst h
        simp only [List.cons_append, Buffer.have_chunk]
        rw [if_pos (by simp; omega)]
        rw [List.take_append_of_le_length hle]
      next => exact Option.noConfusion h

theorem Buffer.have_chunk_nil {b : Buffer} (h : b.data = []) : b.have_chunk = none := by
  obtain ⟨d, n⟩ := b
  cases h
  rfl

theorem seqFrom_succ (n k : Nat) : seqFrom n (k + 1) = n :: seqFrom (n + 1) k := rfl

/-! ### Draining a `HaveData` iterator: counters and fuel -/

theorem HaveData.drainFuel_nil {D : Nat → List Nat → Option (List Nat)} {f : Nat}
    {s : HaveData} (h : s.inner.buffer.data = []) :
    HaveData.drainFuel D f s = ([], s) := by
  cases f with
  | zero => rfl
  | succ f =>
      rw [HaveData.drainFuel]
      cases he : s.error with
      | some e => rw [HaveData.next_err (by rw [he]; rfl)]
      | none => rw [HaveData.next_idle he (Buffer.have_chunk_nil h)]

theorem HaveData.drainFuel_chain (D : Nat → List Nat → Option (List Nat)) :
    ∀ (fuel : Nat) (s : HaveData),
      counterChain s.inner.buffer.counter
        ((HaveData.drainFuel D fuel s).1.map (fun c => c.counter))
        (HaveData.drainFuel D fuel s).2.inner.buffer.counter := by
  intro fuel
  induction fuel with
  | zero => intro s; exact Nat.le_refl _
  | succ fuel ih =>
      intro s
      rw [HaveData.drainFuel]
      cases he : s.error with
      | some e =>
          rw [HaveData.next_err (by rw [he]; rfl)]
          exact Nat.le_refl _
      | none =>
          cases hc : s.inner.buffer.have_chunk with
          | none =>
              rw [HaveData.next_idle he hc]
              exact Nat.le_refl _
          | some ch =>
              cases hD : D s.key.nonce ch with
              | some plain =>
                  rw [HaveData.next_ok he hc hD]
                  refine ⟨Nat.le_refl _, ?_⟩
                  exact ih ⟨{ s.inner with
                    buffer := ⟨s.inner.buffer.data.drop ch.length,
                      s.inner.buffer.counter + 1⟩ }, ⟨s.key.nonce + 1⟩, none⟩
              | none =>
                  rw [HaveData.next_fail he hc hD]
                  cases hres : s.inner.buffer.data.drop ch.length with
                  | nil =>
                      rw [Inner.cleanup_nil rfl]
                      exact Nat.le_succ _
                  | cons a t =>
                      rw [@Inner.cleanup_of_ne_nil
                        { s.inner with
                          buffer := ⟨a :: t, s.inner.buffer.counter + 1⟩ }
                        (fun hh => List.noConfusion hh)]
                      refine ⟨Nat.le_succ _, ?_⟩
                      exact ih ⟨{ s.inner with
                        buffer := ⟨[], s.inner.buffer.counter + 1 + 1⟩ }, s.key,
                        some s.inner.buffer.counter⟩

theorem HaveData.drainFuel_seq (D : Nat → List Nat → Option (List Nat))
    (hD : ∀ n b, (D n b).isSome = true) :
    ∀ (fuel : Nat) (s : HaveData), s.error = none →
      s.inner.buffer.data.length ≤ fuel →
      ((HaveData.drainFuel D fuel s).1.map (fun c => c.counter) =
        seqFrom s.inner.buffer.counter (HaveData.drainFuel D fuel s).1.length) ∧
      ((HaveData.drainFuel D fuel s).2.inner.buffer.counter =
        s.inner.buffer.counter + (HaveData.drainFuel D fuel s).1.length) ∧
      (HaveData.drainFuel D fuel s).2.error = none := by
  intro fuel
  induction fuel with
  | zero =>
      intro s he hlen
      exact ⟨rfl, (Nat.add_zero _).symm, he⟩
  | succ fuel ih =>
      intro s he hlen
      rw [HaveData.drainFuel]
      cases hc : s.inner.buffer.have_chunk with
      | none =>
          rw [HaveData.next_idle he hc]
          exact ⟨rfl, (Nat.add_zero _).symm, he⟩
      | some ch =>
          obtain ⟨plain, hD'⟩ := Option.isSome_iff_exists.mp (hD s.key.nonce ch)
          rw [HaveData.next_ok he hc hD']
          obtain ⟨hl2, hlen2⟩ := Buffer.have_chunk_length hc
          have hdrop : (s.inner.buffer.data.drop ch.length).length ≤ fuel := by
            rw [List.length_drop]; omega
          obtain ⟨ih1, ih2, ih3⟩ := ih
            ⟨{ s.inner with
                buffer := ⟨s.inner.buffer.data.drop ch.length, s.inner.buffer.counter + 1⟩ },
              ⟨s.key.nonce + 1⟩, none⟩ rfl hdrop
          refine ⟨?_, ?_, ih3⟩
          · simp only [List.map_cons, List.length_cons, seqFrom_succ, ih1, Inner.chunk]
          · simp only [List.length_cons, ih2]
            omega

/-! ### Per-step observations of the machine -/

theorem seqFrom_chain (k : Nat) : ∀ n, counterChain n (seqFrom n k) (n + k) := by
  induction k with
  | zero => intro n; exact Nat.le_add_right n 0
  | succ k ih =>
      intro n
      refine ⟨Nat.le_refl _, ?_⟩
      have := ih (n + 1)
      have e : n + 1 + k = n + (k + 1) := by omega
      rw [e] at this
      exact this

theorem chain_of_obs {n m : Nat} {cs : List ChunkItem}
    (h1 : cs.map (fun c => c.counter) = seqFrom n cs.length) (h2 : m = n + cs.length) :
    counterChain n (cs.map (fun c => c.counter)) m := by
  rw [h1, h2]
  exact seqFrom_chain cs.length n

theorem Initial.handle_data_cases (s : Initial) (p : List Nat) :
    s.handle_data p = Sum.inl ⟨s.inner.handle_data p⟩ ∨
    s.handle_data p = Sum.inr ⟨s.inner.handle_data p⟩ := by
  rw [Initial.handle_data]
  split
  · exact Or.inr rfl
  · exact Or.inl rfl

theorem Uncertain.new_obs (i : Inner) :
    ((Uncertain.new i).1.inner.buffer.counter =
      i.buffer.counter + (optChunk (Uncertain.new i).2).length) ∧
    ((optChunk (Uncertain.new i).2).map (fun c => c.counter) =
      seqFrom i.buffer.counter (optChunk (Uncertain.new i).2).length) ∧
    (∀ c ∈ optChunk (Uncertain.new i).2, c.plain = []) := by
  obtain ⟨inc, cn, id, ⟨d, n⟩⟩ := i
  cases d <;> cases inc <;>
    simp [Uncertain.new, Inner.cleanup, Buffer.cleanup, optChunk, Inner.chunk, seqFrom]

theorem Inner.cleanup_obs (i : Inner) :
    ((i.cleanup).2.buffer.counter = i.buffer.counter + (optChunk (i.cleanup).1).length) ∧
    ((optChunk (i.cleanup).1).map (fun c => c.counter) =
      seqFrom i.buffer.counter (optChunk (i.cleanup).1).length) ∧
    (∀ c ∈ optChunk (i.cleanup).1, c.plain = []) := by
  obtain ⟨inc, cn, id, ⟨d, n⟩⟩ := i
  cases d <;> simp [Inner.cleanup, Buffer.cleanup, optChunk, Inner.chunk, seqFrom]

theorem Inner.handle_data_cleanup (i : Inner) (p : List Nat) :
    (i.buffer.data ++ p = [] ∧ (i.handle_data p).cleanup = (none, i.handle_data p)) ∨
    ((i.handle_data p).cleanup =
      (some (i.chunk i.buffer.counter (i.buffer.data ++ p) []),
        { i with buffer := ⟨[], i.buffer.counter + 1⟩ })) := by
  cases hq : i.buffer.data ++ p with
  | nil => exact Or.inl ⟨rfl, Inner.cleanup_nil hq⟩
  | cons a t =>
      refine Or.inr ?_
      have hne : (i.handle_data p).buffer.data ≠ [] := by
        show i.buffer.data ++ p ≠ []
        rw [hq]
        exact fun hh => List.noConfusion hh
      rw [Inner.cleanup_of_ne_nil hne]
      have hd : (i.handle_data p).buffer.data = a :: t := hq
      rw [hd]
      rfl

theorem uncertain_flush_none {s : Uncertain} {p : List Nat}
    (h : (s.inner.handle_data p).cleanup = (none, s.inner.handle_data p)) :
    s.handle_data p = none := by
  rw [Uncertain.handle_data, h]

theorem uncertain_flush_some {s : Uncertain} {p : List Nat} {c : ChunkItem}
    {i : Inner} (h : (s.inner.handle_data p).cleanup = (some c, i)) :
    s.handle_data p = some (c, ⟨i⟩) := by
  rw [Uncertain.handle_data, h]

theorem haveNotKey_flush_none {s : HaveNotKey} {p : List Nat}
    (h : (s.inner.handle_data p).cleanup = (none, s.inner.handle_data p)) :
    s.handle_data p = none := by
  rw [HaveNotKey.handle_data, h]

theorem haveNotKey_flush_some {s : HaveNotKey} {p : List Nat} {c : ChunkItem}
    {i : Inner} (h : (s.inner.handle_data p).cleanup = (some c, i)) :
    s.handle_data p = some (c, ⟨i⟩) := by
  rw [HaveNotKey.handle_data, h]

theorem cannotDecrypt_flush_none {s : CannotDecrypt} {p : List Nat}
    (h : (s.inner.handle_data p).cleanup = (none, s.inner.handle_data p)) :
    s.handle_data p = none := by
  rw [CannotDecrypt.handle_data, h]

theorem cannotDecrypt_flush_some {s : CannotDecrypt} {p : List Nat} {c : ChunkItem}
    {i : Inner} (h : (s.inner.handle_data p).cleanup = (some c, i)) :
    s.handle_data p = some (c, ⟨i⟩) := by
  rw [CannotDecrypt.handle_data, h]

theorem HaveData.over_inl {d : HaveData} {hk : HaveKey} (h : d.over = Sum.inl hk) :
    hk = ⟨d.inner, d.key⟩ := by
  rw [HaveData.over] at h
  cases herr : d.error with
  | none =>
      rw [herr] at h
      injection h with h
      exact h.symm
  | some e =>
      rw [herr] at h
      exact Sum.noConfusion h

theorem HaveData.over_inr_buffer {d : HaveData} {cd : CannotDecrypt} {cn : ConnectionItem}
    (h : d.over = Sum.inr (cd, cn)) : cd.inner.buffer = d.inner.buffer := by
  rw [HaveData.over] at h
  cases herr : d.error with
  | none =>
      rw [herr] at h
      exact Sum.noConfusion h
  | some e =>
      rw [herr] at h
      injection h with h
      cases hinc : d.inner.incoming <;>
        simp only [hinc] at h <;>
        cases h <;>
        rfl

theorem HaveData.over_none {d : HaveData} (h : d.error = none) :
    d.over = Sum.inl ⟨d.inner, d.key⟩ := by
  simp only [HaveData.over, h]

/-- Every single coordinator step emits a strictly increasing block of
counters continuing from the state's counter, and — when decryption always
succeeds — exactly the contiguous block of the emitted length. -/
theorem step_obs (D : Nat → List Nat → Option (List Nat)) (s : MachineState) (e : Event) :
    counterChain s.counter ((step D s e).2.map (fun c => c.counter)) (step D s e).1.counter ∧
    ((∀ n b, (D n b).isSome = true) →
      ((step D s e).2.map (fun c => c.counter) = seqFrom s.counter (step D s e).2.length ∧
        (step D s e).1.counter = s.counter + (step D s e).2.length)) := by
  cases s with
  | initialSt s =>
      cases e with
      | payload p =>
          rcases Initial.handle_data_cases s p with h | h <;> simp only [step, h] <;>
            exact ⟨Nat.le_refl _, fun _ => ⟨rfl, (Nat.add_zero _).symm⟩⟩
      | keyArrived k => exact ⟨Nat.le_refl _, fun _ => ⟨rfl, (Nat.add_zero _).symm⟩⟩
      | noKey => exact ⟨Nat.le_refl _, fun _ => ⟨rfl, (Nat.add_zero _).symm⟩⟩
      | close =>
          obtain ⟨o1, o2, -⟩ := Uncertain.new_obs s.inner
          exact ⟨chain_of_obs o2 o1, fun _ => ⟨o2, o1⟩⟩
  | haveCm s =>
      cases e with
      | payload p =>
          by_cases hov : s.inner.buffer.remaining > 0x20000
          · have h : s.handle_data p = Sum.inr (Uncertain.new s.inner) := by
              rw [HaveCm.handle_data, if_pos hov]
            simp only [step, h]
            obtain ⟨o1, o2, -⟩ := Uncertain.new_obs s.inner
            exact ⟨chain_of_obs o2 o1, fun _ => ⟨o2, o1⟩⟩
          · have h : s.handle_data p = Sum.inl ⟨s.inner.handle_data p⟩ := by
              rw [HaveCm.handle_data, if_neg hov]
            simp only [step, h]
            exact ⟨Nat.le_refl _, fun _ => ⟨rfl, (Nat.add_zero _).symm⟩⟩
      | keyArrived k =>
          cases hc : s.inner.buffer.have_chunk with
          | none =>
              have h : s.have_key k = none := by
                rw [HaveCm.have_key, Buffer.next, hc]
              simp only [step, h]
              exact ⟨Nat.le_refl _, fun _ => ⟨rfl, (Nat.add_zero _).symm⟩⟩
          | some ch =>
              have h := HaveCm.have_key_eq hc k
              simp only [step, h]
              refine ⟨⟨Nat.le_refl _, Nat.le_refl _⟩, fun _ => ⟨?_, rfl⟩⟩
              simp [seqFrom, Inner.chunk, MachineState.counter]
      | noKey =>
          obtain ⟨o1, o2, -⟩ := Inner.cleanup_obs s.inner
          exact ⟨chain_of_obs o2 o1, fun _ => ⟨o2, o1⟩⟩
      | close =>
          obtain ⟨o1, o2, -⟩ := Uncertain.new_obs s.inner
          exact ⟨chain_of_obs o2 o1, fun _ => ⟨o2, o1⟩⟩
  | uncertain s =>
      cases e with
      | payload p =>
          rcases Inner.handle_data_cleanup s.inner p with ⟨hq, hcl⟩ | hcl
          · have h := uncertain_flush_none hcl
            simp only [step, h]
            exact ⟨Nat.le_refl _, fun _ => ⟨rfl, (Nat.add_zero _).symm⟩⟩
          · have h := uncertain_flush_some hcl
            simp only [step, h]
            refine ⟨⟨Nat.le_refl _, Nat.le_refl _⟩, fun _ => ⟨?_, rfl⟩⟩
            simp [seqFrom, Inner.chunk, MachineState.counter]
      | keyArrived k => exact ⟨Nat.le_refl _, fun _ => ⟨rfl, (Nat.add_zero _).symm⟩⟩
      | noKey => exact ⟨Nat.le_refl _, fun _ => ⟨rfl, (Nat.add_zero _).symm⟩⟩
      | close => exact ⟨Nat.le_refl _, fun _ => ⟨rfl, (Nat.add_zero _).symm⟩⟩
  | haveNotKey s =>
      cases e with
      | payload p =>
          rcases Inner.handle_data_cleanup s.inner p with ⟨hq, hcl⟩ | hcl
          · have h := haveNotKey_flush_none hcl
            simp only [step, h]
            exact ⟨Nat.le_refl _, fun _ => ⟨rfl, (Nat.add_zero _).symm⟩⟩
          · have h := haveNotKey_flush_some hcl
            simp only [step, h]
            refine ⟨⟨Nat.le_refl _, Nat.le_refl _⟩, fun _ => ⟨?_, rfl⟩⟩
            simp [seqFrom, Inner.chunk, MachineState.counter]
      | keyArrived k => exact ⟨Nat.le_refl _, fun _ => ⟨rfl, (Nat.add_zero _).symm⟩⟩
      | noKey => exact ⟨Nat.le_refl _, fun _ => ⟨rfl, (Nat.add_zero _).symm⟩⟩
      | close => exact ⟨Nat.le_refl _, fun _ => ⟨rfl, (Nat.add_zero _).symm⟩⟩
  | cannotDecrypt s =>
      cases e with
      | payload p =>
          rcases Inner.handle_data_cleanup s.inner p with ⟨hq, hcl⟩ | hcl
          · have h := cannotDecrypt_flush_none hcl
            simp only [step, h]
            exact ⟨Nat.le_refl _, fun _ => ⟨rfl, (Nat.add_zero _).symm⟩⟩
          · have h := cannotDecrypt_flush_some hcl
            simp only [step, h]
            refine ⟨⟨Nat.le_refl _, Nat.le_refl _⟩, fun _ => ⟨?_, rfl⟩⟩
            simp [seqFrom, Inner.chunk, MachineState.counter]
      | keyArrived k => exact ⟨Nat.le_refl _, fun _ => ⟨rfl, (Nat.add_zero _).symm⟩⟩
      | noKey => exact ⟨Nat.le_refl _, fun _ => ⟨rfl, (Nat.add_zero _).symm⟩⟩
      | close => exact ⟨Nat.le_refl _, fun _ => ⟨rfl, (Nat.add_zero _).symm⟩⟩
  | haveKey s =>
      cases e with
      | payload p =>
          constructor
          · cases hov : ((HaveKey.handle_data s p).drain D).2.over with
            | inl hk =>
                have hb := HaveData.over_inl hov
                simp only [HaveData.drain] at hov
                simp only [step, HaveData.drain, hov, hb, MachineState.counter]
                exact HaveData.drainFuel_chain D
                  (s.handle_data p).inner.buffer.data.length (s.handle_data p)
            | inr pr =>
                obtain ⟨cd, cn⟩ := pr
                have hb := HaveData.over_inr_buffer hov
                simp only [HaveData.drain] at hov hb
                simp only [step, HaveData.drain, hov, MachineState.counter]
                rw [hb]
                exact HaveData.drainFuel_chain D
                  (s.handle_data p).inner.buffer.data.length (s.handle_data p)
          · intro hD
            obtain ⟨s1, s2, s3⟩ := HaveData.drainFuel_seq D hD
              (HaveKey.handle_data s p).inner.buffer.data.length (HaveKey.handle_data s p)
              rfl (Nat.le_refl _)
            have hov := HaveData.over_none s3
            simp only [step, HaveData.drain, hov, MachineState.counter]
            exact ⟨s1, s2⟩
      | keyArrived k => exact ⟨Nat.le_refl _, fun _ => ⟨rfl, (Nat.add_zero _).symm⟩⟩
      | noKey => exact ⟨Nat.le_refl _, fun _ => ⟨rfl, (Nat.add_zero _).symm⟩⟩
      | close => exact ⟨Nat.le_refl _, fun _ => ⟨rfl, (Nat.add_zero _).symm⟩⟩

/-- Whole-run form of `step_obs`. -/
theorem run_obs (D : Nat → List Nat → Option (List Nat)) :
    ∀ (evs : List Event) (s : MachineState),
      counterChain s.counter ((run D s evs).2.map (fun c => c.counter))
        (run D s evs).1.counter ∧
      ((∀ n b, (D n b).isSome = true) →
        ((run D s evs).2.map (fun c => c.counter) =
            seqFrom s.counter (run D s evs).2.length ∧
          (run D s evs).1.counter = s.counter + (run D s evs).2.length)) := by
  intro evs
  induction evs with
  | nil => intro s; exact ⟨Nat.le_refl _, fun _ => ⟨rfl, (Nat.add_zero _).symm⟩⟩
  | cons e es ih =>
      intro s
      obtain ⟨c1, c2⟩ := step_obs D s e
      obtain ⟨r1, r2⟩ := ih (step D s e).1
      constructor
      · rw [run, List.map_append]
        exact counterChain_append c1 r1
      · intro hD
        obtain ⟨m1, m2⟩ := c2 hD
        obtain ⟨n1, n2⟩ := r2 hD
        constructor
        · rw [run, List.map_append, m1, n1, m2, List.length_append, ← seqFrom_append]
        · rw [run, List.length_append, n2, m2]
          omega

/-- In a raw streaming state every step stays raw and emits only chunks
with empty plaintext. -/
theorem step_raw (D : Nat → List Nat → Option (List Nat)) (s : MachineState) (e : Event)
    (h : isRaw s = true) :
    isRaw (step D s e).1 = true ∧ ∀ c ∈ (step D s e).2, c.plain = [] := by
  cases s with
  | initialSt s => exact absurd h (by simp [isRaw])
  | haveCm s => exact absurd h (by simp [isRaw])
  | haveKey s => exact absurd h (by simp [isRaw])
  | uncertain s =>
      cases e with
      | payload p =>
          rcases Inner.handle_data_cleanup s.inner p with ⟨hq, hcl⟩ | hcl
          · have hh := uncertain_flush_none hcl
            simp only [step, hh]
            exact ⟨rfl, by intro c hc; cases hc⟩
          · have hh := uncertain_flush_some hcl
            simp only [step, hh]
            refine ⟨rfl, ?_⟩
            intro c hc
            rw [List.mem_singleton] at hc
            subst hc
            rfl
      | keyArrived k => exact ⟨rfl, by intro c hc; cases hc⟩
      | noKey => exact ⟨rfl, by intro c hc; cases hc⟩
      | close => exact ⟨rfl, by intro c hc; cases hc⟩
  | haveNotKey s =>
      cases e with
      | payload p =>
          rcases Inner.handle_data_cleanup s.inner p with ⟨hq, hcl⟩ | hcl
          · have hh := haveNotKey_flush_none hcl
            simp only [step, hh]
            exact ⟨rfl, by intro c hc; cases hc⟩
          · have hh := haveNotKey_flush_some hcl
            simp only [step, hh]
            refine ⟨rfl, ?_⟩
            intro c hc
            rw [List.mem_singleton] at hc
            subst hc
            rfl
      | keyArrived k => exact ⟨rfl, by intro c hc; cases hc⟩
      | noKey => exact ⟨rfl, by intro c hc; cases hc⟩
      | close => exact ⟨rfl, by intro c hc; cases hc⟩
  | cannotDecrypt s =>
      cases e with
      | payload p =>
          rcases Inner.handle_data_cleanup s.inner p with ⟨hq, hcl⟩ | hcl
          · have hh := cannotDecrypt_flush_none hcl
            simp only [step, hh]
            exact ⟨rfl, by intro c hc; cases hc⟩
          · have hh := cannotDecrypt_flush_some hcl
            simp only [step, hh]
            refine ⟨rfl, ?_⟩
            intro c hc
            rw [List.mem_singleton] at hc
            subst hc
            rfl
      | keyArrived k => exact ⟨rfl, by intro c hc; cases hc⟩
      | noKey => exact ⟨rfl, by intro c hc; cases hc⟩
      | close => exact ⟨rfl, by intro c hc; cases hc⟩

/-- Whole-run form of `step_raw`. -/
theorem run_raw (D : Nat → List Nat → Option (List Nat)) :
    ∀ (evs : List Event) (s : MachineState), isRaw s = true →
      isRaw (run D s evs).1 = true ∧ ∀ c ∈ (run D s evs).2, c.plain = [] := by
  intro evs
  induction evs with
  | nil => intro s h; exact ⟨h, by intro c hc; cases hc⟩
  | cons e es ih =>
      intro s h
      obtain ⟨h1, h2⟩ := step_raw D s e h
      obtain ⟨r1, r2⟩ := ih (step D s e).1 h1
      refine ⟨r1, ?_⟩
      intro c hc
      rw [run] at hc
      rcases List.mem_append.mp hc with hc | hc
      · exact h2 c hc
      · exact r2 c hc

/-! ### Claim C1 (corrected) -/

/-- C1, amended: per direction the emitted counters are always strictly
increasing (no duplicates, never decreasing), and on every run in which
authenticated decryption never fails they are exactly the gap-free sequence
`0, 1, 2, …`, regardless of how the byte stream was sliced into payload
deliveries and of which states emitted the chunks.  A decrypt failure,
however, consumes the failing counter without emitting it (see the
counterexample), so gap-freedom holds only up to that point. -/
theorem c1_amended (D : Nat → List Nat → Option (List Nat)) (cn : ConnectionItem)
    (id : Identity) (inc : Bool) (evs : List Event) :
    List.Pairwise (· < ·)
      ((run D (initialState cn id inc) evs).2.map (fun c => c.counter)) ∧
    ((∀ n b, (D n b).isSome = true) →
      (run D (initialState cn id inc) evs).2.map (fun c => c.counter) =
        List.range (run D (initialState cn id inc) evs).2.length) := by
  obtain ⟨c1, c2⟩ := run_obs D evs (initialState cn id inc)
  constructor
  · exact counterChain_pairwise c1
  · intro hD
    obtain ⟨m1, m2⟩ := c2 hD
    rw [m1]
    exact seqFrom_zero _

/-- C1, witness: a clean-handshake run with a decrypting oracle that always
succeeds emits counters `[0, 1]` = `range 2`. -/
theorem c1_witness :
    List.Pairwise (· < ·)
      ((run okD (initialState cnSample idSample false)
        [Event.payload [0, 0], Event.keyArrived ⟨0⟩,
          Event.payload [0, 1, 5]]).2.map (fun c => c.counter)) ∧
    (run okD (initialState cnSample idSample false)
        [Event.payload [0, 0], Event.keyArrived ⟨0⟩,
          Event.payload [0, 1, 5]]).2.map (fun c => c.counter) =
      List.range (run okD (initialState cnSample idSample false)
        [Event.payload [0, 0], Event.keyArrived ⟨0⟩,
          Event.payload [0, 1, 5]]).2.length := by
  obtain ⟨a, b⟩ := c1_amended okD cnSample idSample false
    [Event.payload [0, 0], Event.keyArrived ⟨0⟩, Event.payload [0, 1, 5]]
  exact ⟨a, b (fun n bs => rfl)⟩

/-- C1, counterexample: a run in which the connection message is emitted at
counter 0 and then decryption fails on the chunk at counter 1: the failing
chunk's bytes are consumed without being emitted, and the next emitted
record (in `CannotDecrypt`) carries counter 2 — the emitted counter
sequence is `[0, 2]`, which has a gap and is not `0, 1, …`. -/
theorem c1_counterexample :
    ((run failD (initialState cnSample idSample false)
        [Event.payload [0, 0], Event.keyArrived ⟨0⟩, Event.payload [0, 0],
          Event.payload [9]]).2.map (fun c => c.counter)) = [0, 2] ∧
    ([0, 2] : List Nat) ≠ List.range 2 := by
  constructor
  · decide
  · decide

/-! ### Slicing independence of the decrypting path -/

theorem HaveData.next_data_lt {D : Nat → List Nat → Option (List Nat)} {s : HaveData}
    {c : ChunkItem} {s' : HaveData} (h : HaveData.next D s = (some c, s')) :
    s'.inner.buffer.data.length < s.inner.buffer.data.length := by
  cases he : s.error with
  | some e =>
      rw [HaveData.next_err (by rw [he]; rfl)] at h
      exact absurd h (by simp)
  | none =>
      cases hc : s.inner.buffer.have_chunk with
      | none =>
          rw [HaveData.next_idle he hc] at h
          exact absurd h (by simp)
      | some ch =>
          obtain ⟨h2, hle⟩ := Buffer.have_chunk_length hc
          cases hD : D s.key.nonce ch with
          | some plain =>
              rw [HaveData.next_ok he hc hD] at h
              injection h with h1 h1'
              subst h1'
              simp only [List.length_drop]
              omega
          | none =>
              rw [HaveData.next_fail he hc hD] at h
              cases hres : s.inner.buffer.data.drop ch.length with
              | nil =>
                  rw [Inner.cleanup_nil hres] at h
                  exact absurd h (by simp)
              | cons a t =>
                  rw [@Inner.cleanup_of_ne_nil
                    { s.inner with
                      buffer := ⟨s.inner.buffer.data.drop ch.length,
                        s.inner.buffer.counter + 1⟩ }
                    (by rw [show ({ s.inner with
                      buffer := ⟨s.inner.buffer.data.drop ch.length,
                        s.inner.buffer.counter + 1⟩ } : Inner).buffer.data =
                      s.inner.buffer.data.drop ch.length from rfl, hres]
                        exact fun hh => List.noConfusion hh)] at h
                  injection h with h1 h1'
                  subst h1'
                  simp only [List.length_nil]
                  omega

theorem HaveData.drainFuel_congr (D : Nat → List Nat → Option (List Nat)) :
    ∀ (f₁ : Nat) {s : HaveData} (f₂ : Nat),
      s.inner.buffer.data.length ≤ f₁ → s.inner.buffer.data.length ≤ f₂ →
      HaveData.drainFuel D f₁ s = HaveData.drainFuel D f₂ s := by
  intro f₁
  induction f₁ with
  | zero =>
      intro s f₂ h1 h2
      have hnil : s.inner.buffer.data = [] := List.length_eq_zero.mp (Nat.le_zero.mp h1)
      rw [HaveData.drainFuel_nil hnil, HaveData.drainFuel_nil hnil]
  | succ f₁ ih =>
      intro s f₂ h1 h2
      cases f₂ with
      | zero =>
          have hnil : s.inner.buffer.data = [] := List.length_eq_zero.mp (Nat.le_zero.mp h2)
          rw [HaveData.drainFuel_nil hnil, HaveData.drainFuel_nil hnil]
      | succ f₂ =>
          rw [HaveData.drainFuel, HaveData.drainFuel]
          cases hn : HaveData.next D s with
          | mk oc s' =>
              cases oc with
              | none => rfl
              | some c =>
                  have hlt := HaveData.next_data_lt hn
                  show (c :: (HaveData.drainFuel D f₁ s').1, (HaveData.drainFuel D f₁ s').2) =
                    (c :: (HaveData.drainFuel D f₂ s').1, (HaveData.drainFuel D f₂ s').2)
                  rw [ih f₂ (by omega) (by omega)]

theorem HaveData.drain_eq (D : Nat → List Nat → Option (List Nat)) (s : HaveData) :
    HaveData.drain D s =
      match HaveData.next D s with
      | (none, s') => ([], s')
      | (some c, s') => (c :: (HaveData.drain D s').1, (HaveData.drain D s').2) := by
  cases hl : s.inner.buffer.data.length with
  | zero =>
      have hnil : s.inner.buffer.data = [] := List.length_eq_zero.mp hl
      have hn : HaveData.next D s = (none, s) := by
        cases he : s.error with
        | some e => exact HaveData.next_err (by rw [he]; rfl)
        | none => exact HaveData.next_idle he (Buffer.have_chunk_nil hnil)
      rw [hn, HaveData.drain, HaveData.drainFuel_nil hnil]
  | succ m =>
      rw [HaveData.drain, hl, HaveData.drainFuel]
      cases hn : HaveData.next D s with
      | mk oc s' =>
          cases oc with
          | none => rfl
          | some c =>
              have hlt := HaveData.next_data_lt hn
              show (c :: (HaveData.drainFuel D m s').1, (HaveData.drainFuel D m s').2) =
                (c :: (HaveData.drain D s').1, (HaveData.drain D s').2)
              rw [HaveData.drain]
              rw [HaveData.drainFuel_congr D m s'.inner.buffer.data.length
                (by omega) (Nat.le_refl _)]

/-- Draining after appending more bytes equals draining first and then
draining the residual plus the new bytes, provided the oracle always
succeeds (the essence of slicing independence of the framed path). -/
theorem HaveData.drain_append (D : Nat → List Nat → Option (List Nat))
    (hD : ∀ n b, (D n b).isSome = true) :
    ∀ (fuel : Nat) (s : HaveData), s.inner.buffer.data.length ≤ fuel → s.error = none →
      ∀ (q : List Nat),
      HaveData.drain D (appendHD s q) =
        ((HaveData.drain D s).1 ++
            (HaveData.drain D (appendHD (HaveData.drain D s).2 q)).1,
          (HaveData.drain D (appendHD (HaveData.drain D s).2 q)).2) := by
  intro fuel
  induction fuel with
  | zero =>
      intro s hlen he q
      have hnil : s.inner.buffer.data = [] := List.length_eq_zero.mp (Nat.le_zero.mp hlen)
      have h0 : HaveData.drain D s = ([], s) := by
        rw [HaveData.drain, HaveData.drainFuel_nil hnil]
      rw [h0, List.nil_append]
  | succ fuel ih =>
      intro s hlen he q
      cases hc : s.inner.buffer.have_chunk with
      | none =>
          have hn : HaveData.next D s = (none, s) := HaveData.next_idle he hc
          have h0 : HaveData.drain D s = ([], s) := by rw [HaveData.drain_eq, hn]
          rw [h0, List.nil_append]
      | some ch =>
          obtain ⟨hch2, hchle⟩ := Buffer.have_chunk_length hc
          obtain ⟨plain, hDp⟩ := Option.isSome_iff_exists.mp (hD s.key.nonce ch)
          have hn := HaveData.next_ok he hc hDp
          have hds : HaveData.drain D s =
              (s.inner.chunk s.inner.buffer.counter ch plain ::
                  (HaveData.drain D ⟨{ s.inner with
                    buffer := ⟨s.inner.buffer.data.drop ch.length,
                      s.inner.buffer.counter + 1⟩ }, ⟨s.key.nonce + 1⟩, none⟩).1,
                (HaveData.drain D ⟨{ s.inner with
                  buffer := ⟨s.inner.buffer.data.drop ch.length,
                    s.inner.buffer.counter + 1⟩ }, ⟨s.key.nonce + 1⟩, none⟩).2) := by
            rw [HaveData.drain_eq, hn]
          have hn2 : HaveData.next D (appendHD s q) =
              (some (s.inner.chunk s.inner.buffer.counter ch plain),
                appendHD ⟨{ s.inner with
                  buffer := ⟨s.inner.buffer.data.drop ch.length,
                    s.inner.buffer.counter + 1⟩ }, ⟨s.key.nonce + 1⟩, none⟩ q) := by
            rw [HaveData.next_ok (s := appendHD s q) he
              (Buffer.have_chunk_append hc) hDp]
            simp only [appendHD, Inner.chunk]
            rw [List.drop_append_of_le_length hchle]
          have hrec := ih ⟨{ s.inner with
              buffer := ⟨s.inner.buffer.data.drop ch.length,
                s.inner.buffer.counter + 1⟩ }, ⟨s.key.nonce + 1⟩, none⟩
            (by simp only [List.length_drop]; omega) rfl q
          have hda : HaveData.drain D (appendHD s q) =
              (s.inner.chunk s.inner.buffer.counter ch plain ::
                  (HaveData.drain D (appendHD ⟨{ s.inner with
                    buffer := ⟨s.inner.buffer.data.drop ch.length,
                      s.inner.buffer.counter + 1⟩ }, ⟨s.key.nonce + 1⟩, none⟩ q)).1,
                (HaveData.drain D (appendHD ⟨{ s.inner with
                  buffer := ⟨s.inner.buffer.data.drop ch.length,
                    s.inner.buffer.counter + 1⟩ }, ⟨s.key.nonce + 1⟩, none⟩ q)).2) := by
            rw [HaveData.drain_eq, hn2]
          rw [hda, hrec, hds]
          simp [List.cons_append]

/-- With a total oracle, a payload step from `HaveKey` drains the buffer
and returns to `HaveKey`. -/
theorem step_haveKey (D : Nat → List Nat → Option (List Nat))
    (hD : ∀ n b, (D n b).isSome = true) (s : HaveKey) (p : List Nat) :
    step D (.haveKey s) (.payload p) =
      (.haveKey ⟨((s.handle_data p).drain D).2.inner, ((s.handle_data p).drain D).2.key⟩,
        ((s.handle_data p).drain D).1) := by
  have s3 := (HaveData.drainFuel_seq D hD (s.handle_data p).inner.buffer.data.length
    (s.handle_data p) rfl (Nat.le_refl _)).2.2
  have hov := HaveData.over_none s3
  simp only [step, HaveData.drain, hov]

/-- Merging two consecutive payload deliveries from `HaveKey` (total
oracle): the run over `[p, q]` equals the run over `[p ++ q]`. -/
theorem run_haveKey_merge (D : Nat → List Nat → Option (List Nat))
    (hD : ∀ n b, (D n b).isSome = true) (s : HaveKey) (p q : List Nat) :
    run D (.haveKey s) [Event.payload p, Event.payload q] =
      run D (.haveKey s) [Event.payload (p ++ q)] := by
  have herr : ((HaveKey.handle_data s p).drain D).2.error = none :=
    (HaveData.drainFuel_seq D hD (HaveKey.handle_data s p).inner.buffer.data.length
      (HaveKey.handle_data s p) rfl (Nat.le_refl _)).2.2
  have h1 := step_haveKey D hD s p
  have h2 := step_haveKey D hD
    ⟨((s.handle_data p).drain D).2.inner, ((s.handle_data p).drain D).2.key⟩ q
  have h3 := step_haveKey D hD s (p ++ q)
  have hx : HaveKey.handle_data
      ⟨((s.handle_data p).drain D).2.inner, ((s.handle_data p).drain D).2.key⟩ q =
      appendHD ((s.handle_data p).drain D).2 q := by
    simp only [appendHD, herr]
    rfl
  have hy : HaveKey.handle_data s (p ++ q) = appendHD (HaveKey.handle_data s p) q := by
    simp only [appendHD, HaveKey.handle_data, Inner.handle_data, Buffer.handle_data]
    rw [List.append_assoc]
  have hap := HaveData.drain_append D hD
    (HaveKey.handle_data s p).inner.buffer.data.length (HaveKey.handle_data s p)
    (Nat.le_refl _) rfl q
  simp only [run, h1, h2, h3, hx, hy, hap, List.append_nil, List.append_assoc]

/-- Any non-empty payload schedule from `HaveKey` is equivalent, under a
total oracle, to delivering its whole concatenation at once. -/
theorem run_payloads_flatten (D : Nat → List Nat → Option (List Nat))
    (hD : ∀ n b, (D n b).isSome = true) :
    ∀ (ps : List (List Nat)) (s : HaveKey), ps ≠ [] →
      run D (.haveKey s) (ps.map Event.payload) =
        run D (.haveKey s) [Event.payload ps.flatten] := by
  intro ps
  induction ps with
  | nil => intro s h; exact absurd rfl h
  | cons p ps ih =>
      intro s hne
      by_cases hps : ps = []
      · subst hps
        simp [List.flatten]
      · have hstep := step_haveKey D hD s p
        have hihs := ih ⟨((s.handle_data p).drain D).2.inner,
          ((s.handle_data p).drain D).2.key⟩ hps
        rw [show (p :: ps).flatten = p ++ ps.flatten from rfl,
          ← run_haveKey_merge D hD s p ps.flatten]
        simp only [List.map_cons, run, hstep, hihs, List.append_nil,
          List.append_assoc]

/-! ### Claim C8 (corrected) -/

/-- C8, amended: slicing independence holds on the decrypting path: from
any `HaveKey` state, any two non-empty payload schedules carrying the same
concatenated byte stream produce — when authenticated decryption succeeds
on every chunk — the identical emitted chunk sequence and the identical
final state.  In the raw streaming states each delivery is flushed as one
chunk, so there the emitted records follow the delivery boundaries (see
the counterexample). -/
theorem c8_amended (D : Nat → List Nat → Option (List Nat))
    (hD : ∀ n b, (D n b).isSome = true) (s : HaveKey)
    (ps qs : List (List Nat)) (hps : ps ≠ []) (hqs : qs ≠ [])
    (h : ps.flatten = qs.flatten) :
    run D (.haveKey s) (ps.map Event.payload) =
      run D (.haveKey s) (qs.map Event.payload) := by
  rw [run_payloads_flatten D hD ps s hps, run_payloads_flatten D hD qs s hqs, h]

/-- C8, witness: the amended theorem at the two schedules
`[[0, 1], [7]]` and `[[0, 1, 7]]` of the same byte stream with an
always-succeeding oracle. -/
theorem c8_witness :
    run okD (MachineState.haveKey ⟨⟨false, cnSample, idSample, ⟨[], 0⟩⟩, ⟨0⟩⟩)
      ([[0, 1], [7]].map Event.payload) =
    run okD (MachineState.haveKey ⟨⟨false, cnSample, idSample, ⟨[], 0⟩⟩, ⟨0⟩⟩)
      ([[0, 1, 7]].map Event.payload) :=
  c8_amended okD (fun _ _ => rfl) ⟨⟨false, cnSample, idSample, ⟨[], 0⟩⟩, ⟨0⟩⟩
    [[0, 1], [7]] [[0, 1, 7]] (by decide) (by decide) (by decide)

/-- C8, counterexample: in the `Uncertain` streaming state each payload
delivery is flushed as one chunk, so two different partitions of the same
byte stream `[1, 2]` produce different emitted chunk sequences. -/
theorem c8_counterexample :
    ([1, 2] : List Nat) = [1] ++ [2] ∧
    (run failD (initialState cnSample idSample false)
        [Event.close, Event.payload [1, 2]]).2 ≠
      (run failD (initialState cnSample idSample false)
        [Event.close, Event.payload [1], Event.payload [2]]).2 :=
  ⟨rfl, by decide⟩

/-! ### Claim C7 (confirmed) -/

/-- C7: after an authenticated-decryption failure on a direction, no chunk
record subsequently emitted on that direction carries non-empty plaintext,
while raw bytes continue to be recorded: the `HaveData` iterator yields
nothing once its error is set (leaving the state untouched), and every
chunk a `CannotDecrypt` direction ever emits — over any further event
sequence — has empty plaintext. -/
theorem c7_no_plaintext_after_failure (D : Nat → List Nat → Option (List Nat)) :
    (∀ s : HaveData, s.error.isSome = true → HaveData.next D s = (none, s)) ∧
    (∀ (cd : CannotDecrypt) (evs : List Event) (c : ChunkItem),
      c ∈ (run D (MachineState.cannotDecrypt cd) evs).2 → c.plain = []) :=
  ⟨fun _ hs => HaveData.next_err hs,
    fun cd evs c hc => (run_raw D evs (MachineState.cannotDecrypt cd) rfl).2 c hc⟩

/-- C7, witness: an error-stamped iterator yields nothing at a concrete
state, and a concrete `CannotDecrypt` run emits its chunk with empty
plaintext. -/
theorem c7_witness :
    HaveData.next failD ⟨⟨false, cnSample, idSample, ⟨[0, 0], 3⟩⟩, ⟨1⟩, some 2⟩ =
      (none, ⟨⟨false, cnSample, idSample, ⟨[0, 0], 3⟩⟩, ⟨1⟩, some 2⟩) ∧
    (⟨1, false, 0, [7], []⟩ : ChunkItem).plain = [] := by
  obtain ⟨a, b⟩ := c7_no_plaintext_after_failure failD
  refine ⟨a ⟨⟨false, cnSample, idSample, ⟨[0, 0], 3⟩⟩, ⟨1⟩, some 2⟩ rfl, ?_⟩
  exact b ⟨⟨false, cnSample, idSample, ⟨[], 0⟩⟩⟩ [Event.payload [7]]
    ⟨1, false, 0, [7], []⟩ (by decide)

/-! ### Claim C3 (corrected) -/

/-- C3, counterexample: the `check` closure of `make_key` is applied to the
**raw** chunk bytes (including the 2-byte length prefix), not to the
payload after it.  For a remote connection message whose raw chunk is 89
bytes (payload 87 bytes, hence "88 or fewer" per the claim), the code does
*not* stamp `incoming_too_short`; it runs the remaining checks and sets
the peer public key to raw bytes `[4..36)`, which differ from the claimed
payload bytes `[4..36)`. -/
theorem c3_counterexample :
    ((HaveCm.make_key mkKeysOk powAccept ⟨⟨false, cnSample, idSample, ⟨cmRawLocal, 0⟩⟩⟩
        ⟨⟨true, cnSample, idSample, ⟨cmRawRemote, 0⟩⟩⟩).map
      (fun o => (o.cn.comments.incoming_too_short, o.cn.peerPk))) =
      some (none, some ((cmRawRemote.drop 4).take 32)) ∧
    (cmRawRemote.drop 2).length ≤ 88 ∧
    ((cmRawRemote.drop 4).take 32) ≠ (((cmRawRemote.drop 2).drop 4).take 32) := by
  refine ⟨by decide, by decide, by decide⟩

/-- C3, amended: the soft check runs on the raw connection-message chunk
bytes (including the 2-byte length prefix): it flags `*_too_short(raw_len)`
exactly when the raw chunk is 88 bytes or fewer; otherwise it runs the
proof-of-work check over raw bytes `[4..60)` against target 26.0, flagging
`*_wrong_pow(26.0)` on failure; and when both checks pass on the remote
connection message, the peer public key is set to raw bytes `[4..36)`. -/
theorem c3_amended
    (mkKeys : Identity → List Nat → List Nat → Bool → Option (Key × Key))
    (powOk : List Nat → Bool) (s peer : HaveCm) (lc rc : List Nat) (k1 k2 : Key)
    (hl : s.inner.buffer.have_chunk = some lc)
    (hr : peer.inner.buffer.have_chunk = some rc)
    (hk : mkKeys s.inner.id lc rc s.inner.cn.initiator = some (k1, k2)) :
    (lc.length ≤ 88 →
      (HaveCm.make_key mkKeys powOk s peer).map
        (fun o => o.cn.comments.outgoing_too_short) = some (some lc.length)) ∧
    (88 < lc.length → powOk ((lc.drop 4).take 56) = false →
      (HaveCm.make_key mkKeys powOk s peer).map
        (fun o => o.cn.comments.outgoing_wrong_pow) = some (some powTarget)) ∧
    (88 < lc.length → powOk ((lc.drop 4).take 56) = true →
      (HaveCm.make_key mkKeys powOk s peer).map
        (fun o => o.cn.comments.outgoing_too_short) =
        some s.inner.cn.comments.outgoing_too_short ∧
      (HaveCm.make_key mkKeys powOk s peer).map
        (fun o => o.cn.comments.outgoing_wrong_pow) =
        some s.inner.cn.comments.outgoing_wrong_pow) ∧
    (rc.length ≤ 88 →
      (HaveCm.make_key mkKeys powOk s peer).map
        (fun o => o.cn.comments.incoming_too_short) = some (some rc.length)) ∧
    (88 < rc.length → powOk ((rc.drop 4).take 56) = false →
      (HaveCm.make_key mkKeys powOk s peer).map
        (fun o => o.cn.comments.incoming_wrong_pow) = some (some powTarget)) ∧
    (88 < rc.length → powOk ((rc.drop 4).take 56) = true →
      (HaveCm.make_key mkKeys powOk s peer).map
        (fun o => o.cn.peerPk) = some (some ((rc.drop 4).take 32)) ∧
      (HaveCm.make_key mkKeys powOk s peer).map
        (fun o => o.cn.comments.incoming_too_short) =
        some s.inner.cn.comments.incoming_too_short ∧
      (HaveCm.make_key mkKeys powOk s peer).map
        (fun o => o.cn.comments.incoming_wrong_pow) =
        some s.inner.cn.comments.incoming_wrong_pow) := by
  rw [HaveCm.make_key_some hl hr hk]
  refine ⟨?_, ?_, ?_, ?_, ?_, ?_⟩
  · intro h
    simp [(applyRemoteCheck_outgoing powOk _ rc).1, applyLocalCheck, check_err_short h]
  · intro h hp
    simp [(applyRemoteCheck_outgoing powOk _ rc).2, applyLocalCheck, check_err_pow h hp]
  · intro h hp
    constructor
    · simp [(applyRemoteCheck_outgoing powOk _ rc).1, applyLocalCheck, check_ok h hp]
    · simp [(applyRemoteCheck_outgoing powOk _ rc).2, applyLocalCheck, check_ok h hp]
  · intro h
    simp [applyRemoteCheck, check_err_short h, (applyLocalCheck_incoming powOk _ lc).1]
  · intro h hp
    simp [applyRemoteCheck, check_err_pow h hp, (applyLocalCheck_incoming powOk _ lc).2.1]
  · intro h hp
    refine ⟨?_, ?_, ?_⟩
    · simp [applyRemoteCheck, check_ok h hp]
    · simp [applyRemoteCheck, check_ok h hp, (applyLocalCheck_incoming powOk _ lc).1]
    · simp [applyRemoteCheck, check_ok h hp, (applyLocalCheck_incoming powOk _ lc).2.1]

/-- C3, witness: the amended theorem at a concrete rendezvous where the
local raw chunk is 50 bytes (`outgoing_too_short(50)` stamped) and the
remote raw chunk is 89 bytes with an accepting proof-of-work oracle (peer
public key set to its raw bytes `[4..36)`). -/
theorem c3_witness :
    ((HaveCm.make_key mkKeysOk powAccept
        ⟨⟨false, cnSample, idSample, ⟨[0, 48] ++ List.replicate 48 7, 0⟩⟩⟩
        ⟨⟨true, cnSample, idSample, ⟨cmRawRemote, 0⟩⟩⟩).map
      (fun o => o.cn.comments.outgoing_too_short) = some (some 50)) ∧
    ((HaveCm.make_key mkKeysOk powAccept
        ⟨⟨false, cnSample, idSample, ⟨[0, 48] ++ List.replicate 48 7, 0⟩⟩⟩
        ⟨⟨true, cnSample, idSample, ⟨cmRawRemote, 0⟩⟩⟩).map
      (fun o => o.cn.peerPk) = some (some ((cmRawRemote.drop 4).take 32))) := by
  obtain ⟨a, -, -, -, -, f⟩ :=
    c3_amended mkKeysOk powAccept
      ⟨⟨false, cnSample, idSample, ⟨[0, 48] ++ List.replicate 48 7, 0⟩⟩⟩
      ⟨⟨true, cnSample, idSample, ⟨cmRawRemote, 0⟩⟩⟩
      ([0, 48] ++ List.replicate 48 7) cmRawRemote ⟨0⟩ ⟨0⟩ (by decide) (by decide) rfl
  exact ⟨a (by decide), (f (by decide) rfl).1⟩

/-! ### Claim C6 (confirmed) -/

/-- C6: when key derivation fails at the rendezvous, `make_key` stamps
`outgoing_wrong_pk` on the connection and both halves transition to
`HaveNotKey`, each emitting its buffered connection-message bytes via
`cleanup` as a chunk with empty plaintext; and every later `HaveNotKey`
payload delivery emits the bytes as one raw chunk with empty plaintext. -/
theorem c6_key_derivation_failure
    (mkKeys : Identity → List Nat → List Nat → Bool → Option (Key × Key))
    (powOk : List Nat → Bool) (s peer : HaveCm) (lc rc : List Nat)
    (hl : s.inner.buffer.have_chunk = some lc)
    (hr : peer.inner.buffer.have_chunk = some rc)
    (hk : mkKeys s.inner.id lc rc s.inner.cn.initiator = none) :
    (HaveCm.make_key mkKeys powOk s peer).map
      (fun o => o.cn.comments.outgoing_wrong_pk) = some true ∧
    (HaveCm.make_key mkKeys powOk s peer).map (fun o => o.localHalf) =
      some (Sum.inr ⟨{ s.inner with buffer := ⟨[], s.inner.buffer.counter + 1⟩ }⟩) ∧
    (HaveCm.make_key mkKeys powOk s peer).map (fun o => o.l_chunk) =
      some (some (s.inner.chunk s.inner.buffer.counter s.inner.buffer.data [])) ∧
    (HaveCm.make_key mkKeys powOk s peer).map (fun o => o.remoteHalf) =
      some (Sum.inr ⟨{ peer.inner with buffer := ⟨[], peer.inner.buffer.counter + 1⟩ }⟩) ∧
    (HaveCm.make_key mkKeys powOk s peer).map (fun o => o.r_chunk) =
      some (some (peer.inner.chunk peer.inner.buffer.counter peer.inner.buffer.data [])) ∧
    (∀ (hnk : HaveNotKey) (p : List Nat), p ≠ [] →
      hnk.handle_data p =
        some (hnk.inner.chunk hnk.inner.buffer.counter (hnk.inner.buffer.data ++ p) [],
          ⟨{ hnk.inner with buffer := ⟨[], hnk.inner.buffer.counter + 1⟩ }⟩)) := by
  rw [HaveCm.make_key_none hl hr hk]
  exact ⟨rfl, rfl, rfl, rfl, rfl, fun hnk p hp => haveNotKey_flush_eq hnk p hp⟩

/-- C6, witness: the failure path at a concrete rendezvous holding the
connection messages `[0, 0]` in both directions, plus one later
`HaveNotKey` delivery. -/
theorem c6_witness :
    (HaveCm.make_key mkKeysFail powAccept ⟨⟨false, cnSample, idSample, ⟨[0, 0], 0⟩⟩⟩
        ⟨⟨true, cnSample, idSample, ⟨[0, 0], 0⟩⟩⟩).map
      (fun o => o.cn.comments.outgoing_wrong_pk) = some true ∧
    (HaveCm.make_key mkKeysFail powAccept ⟨⟨false, cnSample, idSample, ⟨[0, 0], 0⟩⟩⟩
        ⟨⟨true, cnSample, idSample, ⟨[0, 0], 0⟩⟩⟩).map (fun o => o.l_chunk) =
      some (some ⟨1, false, 0, [0, 0], []⟩) ∧
    HaveNotKey.handle_data ⟨⟨false, cnSample, idSample, ⟨[], 1⟩⟩⟩ [3] =
      some (⟨1, false, 1, [3], []⟩, ⟨⟨false, cnSample, idSample, ⟨[], 2⟩⟩⟩) := by
  obtain ⟨a, -, c, -, -, f⟩ :=
    c6_key_derivation_failure mkKeysFail powAccept
      ⟨⟨false, cnSample, idSample, ⟨[0, 0], 0⟩⟩⟩ ⟨⟨true, cnSample, idSample, ⟨[0, 0], 0⟩⟩⟩
      [0, 0] [0, 0] rfl rfl rfl
  exact ⟨a, c, f ⟨⟨false, cnSample, idSample, ⟨[], 1⟩⟩⟩ [3] (by decide)⟩

/-! ### Claim C9 (confirmed) -/

/-- C9: on the key-derivation failure path, `make_key` records only the
`outgoing_wrong_pk` comment: the too-short and wrong-pow soft-check fields
and the peer public key are all left exactly as they were on the input
connection record, so the soft checks and the peer-key assignment happen
only on the success path. -/
theorem c9_keyfail_no_soft_checks
    (mkKeys : Identity → List Nat → List Nat → Bool → Option (Key × Key))
    (powOk : List Nat → Bool) (s peer : HaveCm) (lc rc : List Nat)
    (hl : s.inner.buffer.have_chunk = some lc)
    (hr : peer.inner.buffer.have_chunk = some rc)
    (hk : mkKeys s.inner.id lc rc s.inner.cn.initiator = none) :
    (HaveCm.make_key mkKeys powOk s peer).map
      (fun o => o.cn.comments.outgoing_too_short) =
      some s.inner.cn.comments.outgoing_too_short ∧
    (HaveCm.make_key mkKeys powOk s peer).map
      (fun o => o.cn.comments.incoming_too_short) =
      some s.inner.cn.comments.incoming_too_short ∧
    (HaveCm.make_key mkKeys powOk s peer).map
      (fun o => o.cn.comments.outgoing_wrong_pow) =
      some s.inner.cn.comments.outgoing_wrong_pow ∧
    (HaveCm.make_key mkKeys powOk s peer).map
      (fun o => o.cn.comments.incoming_wrong_pow) =
      some s.inner.cn.comments.incoming_wrong_pow ∧
    (HaveCm.make_key mkKeys powOk s peer).map (fun o => o.cn.peerPk) =
      some s.inner.cn.peerPk ∧
    (HaveCm.make_key mkKeys powOk s peer).map
      (fun o => o.cn.comments.outgoing_wrong_pk) = some true := by
  rw [HaveCm.make_key_none hl hr hk]
  exact ⟨rfl, rfl, rfl, rfl, rfl, rfl⟩

/-- C9, witness: the failure path at the concrete rendezvous of the C6
witness: no soft-check comment and no peer key, only `outgoing_wrong_pk`. -/
theorem c9_witness :
    (HaveCm.make_key mkKeysFail powAccept ⟨⟨false, cnSample, idSample, ⟨[0, 0], 0⟩⟩⟩
        ⟨⟨true, cnSample, idSample, ⟨[0, 0], 0⟩⟩⟩).map
      (fun o => o.cn.comments.incoming_too_short) = some none ∧
    (HaveCm.make_key mkKeysFail powAccept ⟨⟨false, cnSample, idSample, ⟨[0, 0], 0⟩⟩⟩
        ⟨⟨true, cnSample, idSample, ⟨[0, 0], 0⟩⟩⟩).map (fun o => o.cn.peerPk) =
      some none ∧
    (HaveCm.make_key mkKeysFail powAccept ⟨⟨false, cnSample, idSample, ⟨[0, 0], 0⟩⟩⟩
        ⟨⟨true, cnSample, idSample, ⟨[0, 0], 0⟩⟩⟩).map
      (fun o => o.cn.comments.outgoing_wrong_pk) = some true := by
  obtain ⟨-, b, -, -, e, f⟩ :=
    c9_keyfail_no_soft_checks mkKeysFail powAccept
      ⟨⟨false, cnSample, idSample, ⟨[0, 0], 0⟩⟩⟩ ⟨⟨true, cnSample, idSample, ⟨[0, 0], 0⟩⟩⟩
      [0, 0] [0, 0] rfl rfl rfl
  exact ⟨b, e, f⟩

end TR
